import Mathlib

/-!
Verification model of the cond-comp conditional-compilation core
(`src/index.ts` of the repository): the directive scanner, the block
parser, the guard-expression validator, the batch evaluator for the
program text generated by `compileIf`/`compileIfs`, and the text
reconstructor (`Cuts`, `makeCuts`, `apply` and its slurping helpers).

Modelling conventions:
* Source text is a `List Char`; positions are indices into that list
  (the original operates on UTF-16 code units; all characters relevant
  to the directives and claims lie in the BMP, where the two agree).
* The host JavaScript parser (`acorn`) and the `vm` module are external
  dependencies, not code of this repository.  They are abstracted:
  comment tokens are an input stream, `acorn.parse` is a function
  parameter, and a guard expression's runtime meaning is a function
  parameter `sem` from expressions and contexts to an outcome and an
  updated context.
* The generated batch program of `compileIfs` is modelled by its
  semantics (`runIf`, `runIfList`): JavaScript `try`/`catch`/`throw`
  becomes an `Except` value, and the thrown wrapper objects
  `\x7b cause, line, column \x7d` become the `JsVal.errObj` constructor.
-/

namespace CondComp

/-- The four directive tags matched by the scanner regexes. -/
inductive Tag where
  | tagIf
  | tagElseif
  | tagElse
  | tagEndif
deriving DecidableEq, Repr

/-- JavaScript regex `\s` character class (ECMAScript WhiteSpace plus
LineTerminator), used by the directive-recognition regexes. -/
def isJsRegexSpace (c : Char) : Bool :=
  let n := c.toNat
  n == 0x0009 || n == 0x000A || n == 0x000B || n == 0x000C || n == 0x000D ||
  n == 0x0020 || n == 0x00A0 || n == 0x1680 || (0x2000 ≤ n && n ≤ 0x200A) ||
  n == 0x2028 || n == 0x2029 || n == 0x202F || n == 0x205F || n == 0x3000 ||
  n == 0xFEFF

/-- ECMAScript LineTerminator characters: LF, CR, LS (U+2028), PS (U+2029).
These are the characters excluded by `.`, and the characters at which `^`
and `$` anchor in a multiline (`m` flag) JavaScript regex. -/
def isLineTerminatorChar (c : Char) : Bool :=
  let n := c.toNat
  n == 0x000A || n == 0x000D || n == 0x2028 || n == 0x2029

/-- The tag alternation `(if|elseif|else|endif)` of the scanner regexes,
applied right after the literal `#`.  The regex tries the alternatives in
the written order with backtracking; since `else` is the only alternative
that is a proper prefix of another (`elseif`), and after consuming `else`
from a text starting with `elseif` the following boundary test always sees
the letter `i` and fails, the ordered alternation is equivalent to the
longest-match dispatch below. -/
def matchTag (l : List Char) : Option (Tag × List Char) :=
  if "elseif".data.isPrefixOf l then some (.tagElseif, l.drop 6)
  else if "endif".data.isPrefixOf l then some (.tagEndif, l.drop 5)
  else if "else".data.isPrefixOf l then some (.tagElse, l.drop 4)
  else if "if".data.isPrefixOf l then some (.tagIf, l.drop 2)
  else none

/-- The suffix `(?:$|\s+$|\s+(.+)$)` of the block-comment regex, which has
the `m` flag: `$` matches at the end of the text or before any
LineTerminator, and `.` matches any non-LineTerminator.  Returns `none`
when no alternative matches, `some none` for a match without capture
group 2, and `some (some e)` when group 2 captured `e`.
The alternatives are tried in order; backtracking inside `\s+` means the
second alternative succeeds exactly when some nonempty whitespace prefix
ends at a `$` position, which (given that the first alternative already
handled a leading terminator) happens exactly when the maximal whitespace
run contains a terminator or exhausts the text.  Group 2 therefore always
captures on the same line as the tag. -/
def matchPayloadMulti (rest : List Char) : Option (Option (List Char)) :=
  match rest with
  | [] => some none
  | c :: _ =>
    if isLineTerminatorChar c then some none
    else if isJsRegexSpace c then
      let w := rest.takeWhile isJsRegexSpace
      if w.any (fun ch => isLineTerminatorChar ch) then some none
      else
        match rest.drop w.length with
        | [] => some none
        | l2 => some (some (l2.takeWhile (fun ch => !isLineTerminatorChar ch)))
    else none

/-- The suffix `(?:$|\s+$|\s+(.+)$)` of the line-comment regex (no `m`
flag): `$` only matches at the end of the text, and `.` still excludes
LineTerminators, so group 2 must run uninterrupted to the end of the
text. -/
def matchPayloadSingle (rest : List Char) : Option (Option (List Char)) :=
  match rest with
  | [] => some none
  | c :: _ =>
    if isJsRegexSpace c then
      let w := rest.takeWhile isJsRegexSpace
      match rest.drop w.length with
      | [] => some none
      | l2 =>
        if l2.any (fun ch => isLineTerminatorChar ch) then none
        else some (some l2)
    else none

/-- The leading `\s*\*?\s*` of the directive regexes: skip whitespace,
then (for block comments) at most one `*`, then more whitespace.  Since
`*` and `#` are not in `\s`, the greedy runs and the optional `*` are
forced, so no backtracking cases remain. -/
def stripLead (isBlock : Bool) (l : List Char) : List Char :=
  let l1 := l.dropWhile isJsRegexSpace
  if isBlock then
    match l1 with
    | '*' :: t => t.dropWhile isJsRegexSpace
    | _ => l1
  else l1

/-- The `#(if|elseif|else|endif)(?:$|\s+$|\s+(.+)$)` part of the
directive regexes, applied after `stripLead`. -/
def matchHashTail (isBlock : Bool) (l2 : List Char) : Option (Tag × String) :=
  match l2 with
  | '#' :: t =>
    match matchTag t with
    | none => none
    | some (tag, rest) =>
      match (if isBlock then matchPayloadMulti rest else matchPayloadSingle rest) with
      | none => none
      | some payload => some (tag, (payload.getD []).asString)
  | _ => none

/-- Attempt to match the directive regex at one anchor position.
For block comments this is `\s*\*?\s*#(if|elseif|else|endif)(?:...)`,
for line comments `\s*#(if|elseif|else|endif)(?:...)`. -/
def matchDirectiveAt (isBlock : Bool) (l : List Char) : Option (Tag × String) :=
  matchHashTail isBlock (stripLead isBlock l)

/-- Leftmost-match search for the multiline block-comment regex: `^` with
the `m` flag anchors at the start of the text and right after every
LineTerminator character, and `exec` returns the match at the earliest
anchor position.  `atStart` records whether the current suffix begins at
such an anchor. -/
def blockDirectiveScan : Bool → List Char → Option (Tag × String)
  | _, [] => none
  | atStart, c :: t =>
    let fromNext := blockDirectiveScan (isLineTerminatorChar c) t
    if atStart then (matchDirectiveAt true (c :: t)).elim fromNext some
    else fromNext

/-- The directive recognition performed by `parse`'s `onComment` handler:
`/^\s*\*?\s*#(if|elseif|else|endif)(?:$|\s+$|\s+(.+)$)/m` for block
comments, `/^\s*#(if|elseif|else|endif)(?:$|\s+$|\s+(.+)$)/` for line
comments.  Returns the tag and `match[2] ?? ''` (the raw guard text). -/
def matchDirective (isBlock : Bool) (text : String) : Option (Tag × String) :=
  if isBlock then blockDirectiveScan true text.data
  else matchDirectiveAt false text.data

/-- A comment token as delivered by the host tokenizer (`acorn`) to the
`onComment` callback: block/line flag, the comment text (without the
comment delimiters), start/end offsets, and the 1-based line and 0-based
column of the comment start.  The tokenizer itself is an external
dependency; its output is the input of the model. -/
structure CommentTok where
  isBlock : Bool
  text : String
  start : Int
  endPos : Int
  line : Int
  column : Int
deriving DecidableEq, Repr

/-- A statement node of the host parser's AST: its `type` tag and the
character span.  Only the distinction `ExpressionStatement` vs anything
else matters to `parseExpression`. -/
structure JsStmt where
  stmtType : String
  start : Int
  endPos : Int
deriving DecidableEq, Repr

/-- The `Program` node of the host parser: its statement list. -/
structure JsProgram where
  body : List JsStmt
deriving DecidableEq, Repr

/-- An abstract host parser: what `acorn.parse(exprCode, ...)` returns —
either a thrown syntax error (carrying its message) or a `Program`. -/
def AcornParse : Type := String → Except String JsProgram

/-- `str.slice(s, e)` for the in-range case used by `parseExpression`
(acorn spans satisfy `0 ≤ s ≤ e ≤ length`). -/
def strSlice (s : String) (a b : Int) : String :=
  ((s.data.drop a.toNat).take (b.toNat - a.toNat)).asString

/-- Result of `parseExpression`: either the normalized expression code or
an error message (the `ParseExpressionResult` union of the source). -/
def ParseExpressionResult : Type := Except String String

/-- Translation of `parseExpression`: parse the raw guard text with the
host parser, reject a first statement that is not an
`ExpressionStatement`, then reject a body whose length is not exactly 1,
and on success return the input sliced to the expression's span.
(`allowAwaitOutsideFunction: true` is part of the abstracted host-parser
configuration.) -/
def parseExpression (acornParse : AcornParse) (exprCode : String) :
    ParseExpressionResult :=
  match acornParse exprCode with
  | .error e => .error e
  | .ok ast =>
    let body := ast.body
    match body.head? with
    | some expr =>
      if expr.stmtType ≠ "ExpressionStatement" then
        .error ("Expected an expression, found " ++ expr.stmtType ++ ".")
      else if body.length ≠ 1 then
        .error "Expected exactly one expression."
      else
        .ok (strSlice exprCode expr.start expr.endPos)
    | none =>
      -- `expr` is `undefined`: the first guard is skipped and the length
      -- check (0 ≠ 1) always fails.
      .error "Expected exactly one expression."

/-- The parse-error subtypes of `CondCompErrorEntry`. -/
inductive ErrSubtype where
  | invalidExpression
  | missingEndif
  | elseifWithoutIf
  | elseifAfterElse
  | elseWithoutIf
  | duplicateElse
  | endifWithoutIf
deriving DecidableEq, Repr

/-- One entry of a `CondCompParseError` (`type: 'parse'` entries only;
evaluation failures are a separate value, see `EvalFailure`). -/
structure ErrEntry where
  subtype : ErrSubtype
  message : String
  line : Int
  column : Int
deriving DecidableEq, Repr

/-- The `Endif` marker of an `IfBlock`; `start = end = line = column = -1`
until the matching `#endif` is seen. -/
structure Endif where
  start : Int
  endPos : Int
  line : Int
  column : Int
deriving DecidableEq, Repr

/-- The sentinel value a fresh `IfBlock`'s `endif` is initialized to. -/
def Endif.unset : Endif := ⟨-1, -1, -1, -1⟩

/-- An `ElseIfBlock`, generic in the expression type `E` and in the type
`C` of nested child blocks (instantiated with `IfBlock E`). -/
structure ElseIfBlockG (E : Type) (C : Type) where
  expression : E
  start : Int
  endPos : Int
  line : Int
  column : Int
  children : Option (List C)
deriving DecidableEq, Repr

/-- An `ElseBlock`, generic in the type `C` of nested child blocks. -/
structure ElseBlockG (C : Type) where
  start : Int
  endPos : Int
  line : Int
  column : Int
  children : Option (List C)
deriving DecidableEq, Repr

/-- `setExpression` of the parser: empty raw guard text or a rejected
parse records an `invalid_expression` entry at the *directive's* line and
column and leaves the block's `expression` at its initial `''`; otherwise
the block's `expression` becomes the normalized code.  Returns the
expression value to store and the error entries to append.  `blockType`
is the `block.type` string interpolated into the message (`"if"` or
`"elseif"`). -/
def setExpression (acornParse : AcornParse) (rawExpression : String)
    (line column : Int) (blockType : String) : String × List ErrEntry :=
  if rawExpression = "" then
    ("", [⟨.invalidExpression,
          "Found #" ++ blockType ++ " without expression.", line, column⟩])
  else
    match parseExpression acornParse rawExpression with
    | .error msg => ("", [⟨.invalidExpression, msg, line, column⟩])
    | .ok code => (code, [])

/-- An `IfBlock` of the parsed tree, generic in the expression type `E`
(`String` after parsing; kept abstract for the evaluator, whose claims
quantify over arbitrary guard meanings). -/
inductive IfBlock (E : Type) where
  | mk (expression : E) (start : Int) (endPos : Int) (line : Int)
       (column : Int) (takenBranch : Option Int)
       (children : Option (List (IfBlock E)))
       (elseIfs : Option (List (ElseIfBlockG E (IfBlock E))))
       (elseB : Option (ElseBlockG (IfBlock E)))
       (endif : Endif) (dummy : Bool)

/-- The `ElseIfBlock` type of the source. -/
abbrev ElseIfBlock (E : Type) := ElseIfBlockG E (IfBlock E)

/-- The `ElseBlock` type of the source. -/
abbrev ElseBlock (E : Type) := ElseBlockG (IfBlock E)

variable {E V Ctx : Type}

def IfBlock.expression : IfBlock E → E
  | .mk e _ _ _ _ _ _ _ _ _ _ => e

def IfBlock.start : IfBlock E → Int
  | .mk _ s _ _ _ _ _ _ _ _ _ => s

def IfBlock.endPos : IfBlock E → Int
  | .mk _ _ p _ _ _ _ _ _ _ _ => p

def IfBlock.line : IfBlock E → Int
  | .mk _ _ _ n _ _ _ _ _ _ _ => n

def IfBlock.column : IfBlock E → Int
  | .mk _ _ _ _ c _ _ _ _ _ _ => c

def IfBlock.takenBranch : IfBlock E → Option Int
  | .mk _ _ _ _ _ t _ _ _ _ _ => t

def IfBlock.children : IfBlock E → Option (List (IfBlock E))
  | .mk _ _ _ _ _ _ cs _ _ _ _ => cs

def IfBlock.elseIfs : IfBlock E → Option (List (ElseIfBlock E))
  | .mk _ _ _ _ _ _ _ eis _ _ _ => eis

def IfBlock.elseB : IfBlock E → Option (ElseBlock E)
  | .mk _ _ _ _ _ _ _ _ eb _ _ => eb

def IfBlock.endif : IfBlock E → Endif
  | .mk _ _ _ _ _ _ _ _ _ en _ => en

def IfBlock.dummy : IfBlock E → Bool
  | .mk _ _ _ _ _ _ _ _ _ _ d => d

/-! ## The batch evaluator

`compileIfs` turns the block tree into one JavaScript program which is run
once by `vm.runInContext`.  The model below gives the semantics of that
generated program directly.  A guard expression's meaning is a parameter
`sem : E → Ctx → (Except V Bool) × Ctx`: evaluating it against the shared
mutable context yields either a thrown value (`V`) or the truthiness of
its result, together with the updated context.  In addition the run
records the trace of guard evaluations, in evaluation order, each entry
carrying the guard expression and the context it was invoked on (this
instrumented observation does not influence the run). -/

/-- A JavaScript value as far as thrown errors are concerned: a value
thrown by a guard expression, the wrapper object
`\x7b cause, line, column \x7d` thrown by the generated `catch` blocks, or
an error produced by the `vm` host itself (e.g. a `SyntaxError`). -/
inductive JsVal (V : Type) where
  | user (v : V)
  | errObj (cause : JsVal V) (line : Int) (column : Int)
  | hostError
deriving DecidableEq, Repr

/-- An `EvaluationResultEntry` of the generated program: the taken branch
(`0` = the `if` guard, `k ≥ 1` = the k-th `elseif`, `-1` = `else` or no
match) and, when the generated object literal carried a `children` field,
the nested entries of the taken branch. -/
inductive REntry where
  | mk (branch : Int) (children : Option (List REntry))

def REntry.branch : REntry → Int
  | .mk b _ => b

def REntry.childrenR : REntry → Option (List REntry)
  | .mk _ cs => cs

mutual

/-- Semantics of the code `compileIf` generates for one `IfBlock`:
`try \x7b if (expr) return \x7b branch: 0, children: [...] \x7d \x7d catch (e)
\x7b throw \x7b cause: e, line, column \x7d \x7d`, then the same for each
`elseif` (see `runElseIfs`), and finally
`return \x7b branch: -1, <else children> \x7d` outside every `try`.  Note
that the children of the `if` branch are evaluated inside the `if`'s
`try`, the children of an `elseif` branch inside that `elseif`'s `try`,
and the children of the `else` branch outside all of them.  The cascade
falling through (no guard truthy) is `runElseIfs` returning `none` in its
first component. -/
def runIf (sem : E → Ctx → (Except V Bool) × Ctx) :
    IfBlock E → Ctx → (Except (JsVal V) REntry) × Ctx × List (E × Ctx)
  | .mk expr _ _ ln col _ cs eis eb _ _, c =>
    match sem expr c with
    | (.error v, c1) => (.error (.errObj (.user v) ln col), c1, [(expr, c)])
    | (.ok true, c1) =>
      match cs with
      | none => (.ok (.mk 0 none), c1, [(expr, c)])
      | some l =>
        match runIfList sem l c1 with
        | (.ok es, c2, tr) => (.ok (.mk 0 (some es)), c2, (expr, c) :: tr)
        | (.error t, c2, tr) => (.error (.errObj t ln col), c2, (expr, c) :: tr)
    | (.ok false, c1) =>
      match eis with
      | none =>
        match runIfFinal sem eb c1 with
        | (r, c2, tr2) => (r, c2, (expr, c) :: tr2)
      | some l =>
        match runElseIfs sem l 1 c1 with
        | (some r, c2, tr) => (r, c2, (expr, c) :: tr)
        | (none, c2, tr) =>
          match runIfFinal sem eb c2 with
          | (r, c3, tr2) => (r, c3, (expr, c) :: (tr ++ tr2))

/-- Semantics of the `elseif` cascade generated by `compileIf`; `idx` is
`index + 1` of the source's `map`.  Returns `some` of the result when an
`elseif` guard is truthy or throws, and `none` when the whole cascade
falls through to the final `return`. -/
def runElseIfs (sem : E → Ctx → (Except V Bool) × Ctx) :
    List (ElseIfBlock E) → Int → Ctx →
    (Option (Except (JsVal V) REntry)) × Ctx × List (E × Ctx)
  | [], _, c => (none, c, [])
  | ⟨expr, _, _, ln, col, cs⟩ :: rest, idx, c =>
    match sem expr c with
    | (.error v, c1) => (some (.error (.errObj (.user v) ln col)), c1, [(expr, c)])
    | (.ok true, c1) =>
      match cs with
      | none => (some (.ok (.mk idx none)), c1, [(expr, c)])
      | some l =>
        match runIfList sem l c1 with
        | (.ok es, c2, tr) => (some (.ok (.mk idx (some es))), c2, (expr, c) :: tr)
        | (.error t, c2, tr) => (some (.error (.errObj t ln col)), c2, (expr, c) :: tr)
    | (.ok false, c1) =>
      match runElseIfs sem rest (idx + 1) c1 with
      | (r, c2, tr) => (r, c2, (expr, c) :: tr)

/-- Semantics of the final `return \x7b branch: -1, <else children> \x7d` of
the generated code, reached when the `if` guard and every `elseif` guard
were falsy: evaluated outside every `try`, so errors from the `else`
branch's children propagate unwrapped. -/
def runIfFinal (sem : E → Ctx → (Except V Bool) × Ctx) :
    Option (ElseBlock E) → Ctx → (Except (JsVal V) REntry) × Ctx × List (E × Ctx)
  | none, c => (.ok (.mk (-1) none), c, [])
  | some ⟨_, _, _, _, ebCs⟩, c =>
    match ebCs with
    | none => (.ok (.mk (-1) none), c, [])
    | some l =>
      match runIfList sem l c with
      | (.ok es, c2, tr) => (.ok (.mk (-1) (some es)), c2, tr)
      | (.error t, c2, tr) => (.error t, c2, tr)

/-- Semantics of a generated array literal `[ <compiled if>, ... ]`:
elements evaluate left to right; a thrown value aborts the rest. -/
def runIfList (sem : E → Ctx → (Except V Bool) × Ctx) :
    List (IfBlock E) → Ctx → (Except (JsVal V) (List REntry)) × Ctx × List (E × Ctx)
  | [], c => (.ok [], c, [])
  | b :: bs, c =>
    match runIf sem b c with
    | (.error t, c1, tr) => (.error t, c1, tr)
    | (.ok e, c1, tr) =>
      match runIfList sem bs c1 with
      | (.ok es, c2, tr2) => (.ok (e :: es), c2, tr ++ tr2)
      | (.error t, c2, tr2) => (.error t, c2, tr ++ tr2)

end

/-- The failure value carried by a `CondCompEvalError`: line, column, and
the original error (`cause`). -/
structure EvalFailure (V : Type) where
  line : Int
  column : Int
  cause : JsVal V
deriving DecidableEq, Repr

/-- `makeEvaluationError`: reads `line`, `column` and `cause` off the
thrown (or returned, non-array) value.  The generated program only ever
returns wrapper objects here, so the catch-all case is unreachable (the
JavaScript original would read `undefined` fields there). -/
def makeEvaluationError : JsVal V → EvalFailure V
  | .errObj cause ln col => ⟨ln, col, cause⟩
  | t => ⟨0, 0, t⟩

mutual

/-- `setEvaluationResults`: walk the block list and the entry list in
lock-step, stamp `takenBranch`, and recurse into the children of the
branch the entry says was taken.  The generated program yields exactly one
entry per block, so the length-mismatch cases are unreachable. -/
def setEvaluationResults : List (IfBlock E) → List REntry → List (IfBlock E)
  | bs, [] => bs
  | [], _ :: _ => []
  | b :: bs, en :: ens => setOneResult b en :: setEvaluationResults bs ens

/-- One step of `setEvaluationResults` for a single block/entry pair. -/
def setOneResult : IfBlock E → REntry → IfBlock E
  | .mk expr s p ln col _ cs eis eb en d, .mk branch childrenResults =>
    match childrenResults with
    | none => .mk expr s p ln col (some branch) cs eis eb en d
    | some crs =>
      if branch = 0 then
        match cs with
        | some l => .mk expr s p ln col (some branch)
            (some (setEvaluationResults l crs)) eis eb en d
        | none => .mk expr s p ln col (some branch) cs eis eb en d
      else if branch > 0 then
        match eis with
        | some l => .mk expr s p ln col (some branch) cs
            (some (setElseIfResult l (branch - 1).toNat crs)) eb en d
        | none => .mk expr s p ln col (some branch) cs eis eb en d
      else
        match eb with
        | some ⟨ebS, ebE, ebLn, ebCol, ebCs⟩ =>
          match ebCs with
          | some l => .mk expr s p ln col (some branch) cs eis
              (some ⟨ebS, ebE, ebLn, ebCol, some (setEvaluationResults l crs)⟩) en d
          | none => .mk expr s p ln col (some branch) cs eis eb en d
        | none => .mk expr s p ln col (some branch) cs eis eb en d

/-- Update the `k`-th `elseif`'s children with the nested results
(`setEvaluationResults(ifBlock.elseIfs![branch - 1].children!, ...)`). -/
def setElseIfResult : List (ElseIfBlock E) → Nat → List REntry → List (ElseIfBlock E)
  | [], _, _ => []
  | ⟨expr, s, p, ln, col, cs⟩ :: rest, 0, crs =>
    (match cs with
     | some l => ⟨expr, s, p, ln, col, some (setEvaluationResults l crs)⟩
     | none => ⟨expr, s, p, ln, col, cs⟩) :: rest
  | ei :: rest, k+1, crs => ei :: setElseIfResult rest k crs

end

mutual

/-- Whether any guard expression anywhere in the tree satisfies `p`.  The
program text generated by `compileIfs` contains every guard expression of
the tree (also those of branches that will not be taken), so a guard that
cannot be compiled in the synchronous mode (a suspension point, i.e. an
`await`) makes `vm.runInContext` throw a `SyntaxError` for the whole
program even if that guard would never have been reached. -/
def anyGuard (p : E → Bool) : List (IfBlock E) → Bool
  | [] => false
  | b :: bs => anyGuardOne p b || anyGuard p bs

/-- `anyGuard` for a single block. -/
def anyGuardOne (p : E → Bool) : IfBlock E → Bool
  | .mk expr _ _ _ _ _ cs eis eb _ _ =>
    p expr ||
    (match cs with | some l => anyGuard p l | none => false) ||
    (match eis with
     | some l => anyGuardElseIfs p l
     | none => false) ||
    (match eb with
     | some ⟨_, _, _, _, ebCs⟩ =>
       match ebCs with | some l => anyGuard p l | none => false
     | none => false)

/-- `anyGuard` over an `elseif` list. -/
def anyGuardElseIfs (p : E → Bool) : List (ElseIfBlock E) → Bool
  | [] => false
  | ⟨expr, _, _, _, _, cs⟩ :: rest =>
    p expr ||
    (match cs with | some l => anyGuard p l | none => false) ||
    anyGuardElseIfs p rest

end

/-- `evaluateIfs` (the suspension-capable mode): run the generated batch
program once against the shared context, then bind the results.  A
non-array program result (the generated top-level `catch (e) \x7b return e \x7d`
value) makes `setEvaluationResults` throw `makeEvaluationError(result)`.
An error thrown by `vm.runInContext` itself would surface as a failure at
line 0, column 0; in this mode the generated program catches everything,
so that path needs no separate case here. -/
def evaluateIfs (sem : E → Ctx → (Except V Bool) × Ctx)
    (blocks : List (IfBlock E)) (c : Ctx) :
    (Except (EvalFailure V) (List (IfBlock E))) × Ctx :=
  match runIfList sem blocks c with
  | (.ok entries, c', _) => (.ok (setEvaluationResults blocks entries), c')
  | (.error t, c', _) => (.error (makeEvaluationError t), c')

/-- `evaluateIfsSync` (the suspension-incapable mode): the generated
program is not `async`, so a suspension point in any guard expression —
reached or not — is a compile-time `SyntaxError` of `vm.runInContext`,
caught and surfaced as an evaluation failure pinned to line 0, column 0.
`awaitsSync` is the abstracted judgement "this guard expression does not
compile inside a non-async function".  Otherwise the run is the same as
the suspension-capable one. -/
def evaluateIfsSync (sem : E → Ctx → (Except V Bool) × Ctx)
    (awaitsSync : E → Bool) (blocks : List (IfBlock E)) (c : Ctx) :
    (Except (EvalFailure V) (List (IfBlock E))) × Ctx :=
  if anyGuard awaitsSync blocks then
    (.error ⟨0, 0, JsVal.hostError⟩, c)
  else
    evaluateIfs sem blocks c

/-! ## The text reconstructor -/

/-- One `[start, end)` range of the original text to delete. -/
structure Slice where
  start : Int
  endPos : Int
deriving DecidableEq, Repr

/-- The `Cuts` accumulator.  The `(0,0)` sentinel slice simplifies the
first merge. -/
structure Cuts where
  slices : List Slice
deriving DecidableEq, Repr

/-- A fresh `Cuts` object: `[ \x7b start: 0, end: 0 \x7d ]`. -/
def Cuts.init : Cuts := ⟨[⟨0, 0⟩]⟩

/-- `Cuts.add`: extend the previous slice when adjacent, else push a new
one.  `slices` is nonempty by construction (the sentinel is never
removed), so the `none` case is unreachable. -/
def Cuts.add (cuts : Cuts) (s e : Int) : Cuts :=
  match cuts.slices.getLast? with
  | some prev =>
    if prev.endPos = s then ⟨cuts.slices.dropLast ++ [⟨prev.start, e⟩]⟩
    else ⟨cuts.slices ++ [⟨s, e⟩]⟩
  | none => ⟨cuts.slices ++ [⟨s, e⟩]⟩

/-- `Cuts.isEmpty`: only the untouched sentinel is present. -/
def Cuts.isEmpty (cuts : Cuts) : Bool :=
  cuts.slices.length = 1 &&
    (match cuts.slices.head? with
     | some sl => sl.endPos = 0
     | none => false)

mutual

/-- `makeCuts`: turn the taken-branch annotations into delete ranges,
walking the blocks in order (recursive, pre-order). -/
def makeCuts : List (IfBlock E) → Cuts → Cuts
  | [], cuts => cuts
  | b :: bs, cuts => makeCuts bs (makeCutsOne b cuts)

/-- `makeCuts` for a single block: the four cases on `takenBranch`.
`takenBranch` is always set when this runs (`ifBlock.takenBranch!`); a
missing annotation would fall into the `else` arms exactly as the
JavaScript comparison chain (`undefined === 0` and `undefined >= 1` are
both false) does.  An empty-but-present `elseIfs` array is never created
by the parser; in that unreachable state the JavaScript would read
`undefined.start`, the model falls back to the later alternatives. -/
def makeCutsOne : IfBlock E → Cuts → Cuts
  | .mk _ s p _ _ tb cs eis eb en _, cuts =>
    if tb = some 0 then
      -- Cut #if comment.
      let cuts := cuts.add s p
      let cuts := match cs with | some l => makeCuts l cuts | none => cuts
      -- Cut trailing #elseif, #else and #endif comments.
      let st := match eis, eb with
        | some (e0 :: _), _ => e0.start
        | _, some ebv => ebv.start
        | _, none => en.start
      cuts.add st en.endPos
    else if (match tb with | some k => decide (k ≥ 1) | none => false) then
      match eis, tb with
      | some l, some k => makeCutsPos l (k - 1).toNat s (eb.map (fun ebv => ebv.start)) en cuts
      | _, _ => cuts   -- unreachable: a positive branch index implies the elseif list exists
    else
      match eb with
      | some ⟨_, ebE, _, _, ebCs⟩ =>
        -- Cut leading #if and #elseif comments.
        let cuts := cuts.add s ebE
        let cuts := match ebCs with | some l => makeCuts l cuts | none => cuts
        -- Cut #endif comment.
        cuts.add en.start en.endPos
      | none =>
        -- Cut everything.
        cuts.add s en.endPos

/-- The `takenBranch >= 1` case of `makeCuts`, walking to the taken
`elseif` (`ifBlock.elseIfs![takenBranch - 1]`): cut from the `#if` through
the taken `elseif`'s end, recurse into its children, then cut from the
start of the next `elseif` (if `elseIfs.length > takenBranch`), else the
`#else`, else the `#endif`, through `endif.end`.  The empty-list case is
unreachable (the evaluator's branch index is within the list). -/
def makeCutsPos : List (ElseIfBlock E) → Nat → Int → Option Int → Endif → Cuts → Cuts
  | [], _, _, _, _, cuts => cuts
  | ⟨_, _, eiEnd, _, _, cs⟩ :: rest, 0, ifStart, elseStart, en, cuts =>
    -- Cut leading #if and #elseif comments.
    let cuts := cuts.add ifStart eiEnd
    let cuts := match cs with | some l => makeCuts l cuts | none => cuts
    -- Cut trailing #elseif, #else and #endif comments.
    let st := match rest with
      | nxt :: _ => nxt.start
      | [] => match elseStart with | some x => x | none => en.start
    cuts.add st en.endPos
  | _ :: rest, k+1, ifStart, elseStart, en, cuts =>
    makeCutsPos rest k ifStart elseStart en cuts

end

/-- The character codes of `slurpAllWhitespaceLeft`'s `whitespace` array:
the horizontal whitespace characters (and BOM) trimmed immediately before
a cut. -/
def slurpWhitespaceCodes : List Nat :=
  [0x0020, 0x0009, 0x000B, 0x000C, 0x00A0,
   0x1680, 0x2000, 0x2001, 0x2002, 0x2003,
   0x2004, 0x2005, 0x2006, 0x2007, 0x2008,
   0x2009, 0x200A, 0x202F, 0x205F, 0x3000,
   0xFEFF]

/-- `slurpAllWhitespaceLeft`: step `end` left over whitespace characters.
`charCodeAt` of a negative or out-of-range index is `NaN`, which is not in
the whitespace list, so the loop stops at position 0 and at out-of-range
positions exactly like the original. -/
def slurpAllWhitespaceLeft (str : List Char) : Nat → Nat
  | 0 => 0
  | n + 1 =>
    match str.get? n with
    | some c =>
      if slurpWhitespaceCodes.contains c.toNat then slurpAllWhitespaceLeft str n
      else n + 1
    | none => n + 1

/-- `isNewLineChar`, translated verbatim from the source including its
repeated `0x2028` disjunct (the source never tests `0x2029`). -/
def isNewLineChar (charCode : Nat) : Bool :=
  charCode = 0x00A || charCode = 0x000D || charCode = 0x2028 || charCode = 0x2028

/-- `isEmptyLine`: the position is 0 or the preceding character is a
newline character per `isNewLineChar`.  An out-of-range `charCodeAt` is
`NaN`, for which `isNewLineChar` is false. -/
def isEmptyLine (str : List Char) (e : Nat) : Bool :=
  e = 0 ||
    (match str.get? (e - 1) with
     | some c => isNewLineChar c.toNat
     | none => false)

/-- `slurpSingleNewLineRight`: skip exactly one line terminator sequence
(per the source: LF, LS, PS, or CRLF) at `pos`.  All characters involved
are BMP characters, where `codePointAt` agrees with the scalar value. -/
def slurpSingleNewLineRight (str : List Char) (pos : Nat) : Nat :=
  match str.get? pos with
  | some c0 =>
    let n := c0.toNat
    if n = 0x000A || n = 0x2028 || n = 0x2029 then pos + 1
    else if n = 0x000D then
      match str.get? (pos + 1) with
      | some c1 => if c1.toNat = 0x000A then pos + 2 else pos
      | none => pos
    else pos
  | none => pos

/-- `apply`: compute the cuts from the annotated tree; if none, return the
input unchanged; otherwise walk the slices accumulating the text between
cuts, trimming whitespace left of each cut and, when the trimmed cut start
sits at the beginning of a line, slurping one newline after the cut's end.
Positions are clamped to `Nat` (`Int.toNat`); all slice positions produced
from a successfully parsed tree are nonnegative. -/
def apply (code : List Char) (ifBlocks : List (IfBlock E)) : List Char :=
  let cuts := makeCuts ifBlocks Cuts.init
  if cuts.isEmpty then code
  else
    let fin := cuts.slices.foldl
      (fun (acc : List Char × Nat) slice =>
        let resultCode := acc.1
        let pos := acc.2
        let e := slurpAllWhitespaceLeft code slice.start.toNat
        let resultCode := resultCode ++ ((code.drop pos).take (e - pos))
        let pos := slice.endPos.toNat
        let pos := if isEmptyLine code e then slurpSingleNewLineRight code pos else pos
        (resultCode, pos))
      ([], 0)
    fin.1 ++ code.drop fin.2

/-! ## The block parser

The source's `parse` drives the host tokenizer and reacts to its
`onComment` events, building the tree through shared mutable objects: an
`ifStack` of open `IfBlock`s and a `scopeStack` of the currently open
branch scopes.  Every transition pushes/pops both stacks together (an
`elseif`/`else` replaces the top scope in place, `endif` returns early
when the `ifStack` is empty), so the two stacks always have equal length
and are modelled as a single stack of frames.  A frame is an open
`IfBlock` under construction together with a cursor marking its currently
open branch.  Children attach to the enclosing open scope; the source
attaches the (mutable) child when it opens, the model attaches the
finished child when it closes — between a child's opening and its closing
the parent is never the top of the stack, so its cursor cannot change and
the two are observably equal for every parse that succeeds (an
unterminated block makes `parse` throw, discarding the tree). -/

/-- The branch of an open frame that currently accumulates children: the
`if` body, the most recently appended `elseif`'s body, or the `else`
body. -/
inductive Cursor where
  | inIf
  | inElseifLast
  | inElse
deriving DecidableEq, Repr

/-- An open `IfBlock` (a member of both `ifStack` and `scopeStack`). -/
structure Frame where
  expression : String
  start : Int
  endPos : Int
  line : Int
  column : Int
  children : Option (List (IfBlock String))
  elseIfs : Option (List (ElseIfBlock String))
  elseB : Option (ElseBlock String)
  dummy : Bool
  cursor : Cursor

/-- The parser state: finished top-level blocks, the stack of open frames
(head = innermost), and the accumulated error entries. -/
structure ParseState where
  toplevel : List (IfBlock String)
  stack : List Frame
  errors : List ErrEntry

/-- Attach a finished child block to the parent frame's currently open
branch (the `scope.children.push(ifBlock)` of `pushIf`, together with the
`?? []` initialization).  The `inElseifLast`/`inElse` cursors are only set
right after an `elseif` is appended / the `else` is set, so the fallback
arms are unreachable. -/
def attachChild (f : Frame) (b : IfBlock String) : Frame :=
  match f.cursor with
  | .inIf => { f with children := some (f.children.getD [] ++ [b]) }
  | .inElseifLast =>
    match f.elseIfs with
    | some eis =>
      match eis.getLast? with
      | some lastEi =>
        { f with elseIfs := some (eis.dropLast ++
            [{ lastEi with children := some (lastEi.children.getD [] ++ [b]) }]) }
      | none => f
    | none => f
  | .inElse =>
    match f.elseB with
    | some eb => { f with elseB := some { eb with children := some (eb.children.getD [] ++ [b]) } }
    | none => f

/-- The dummy `If` synthesized when an `elseif`/`else` has no matching
`if`, letting parsing continue without cascading errors. -/
def makeDummyFrame (cm : CommentTok) : Frame :=
  { expression := "", start := cm.start, endPos := cm.endPos,
    line := cm.line, column := cm.column, children := none,
    elseIfs := none, elseB := none, dummy := true, cursor := .inIf }

/-- One `onComment` event: recognize the directive (or ignore the
comment) and perform the corresponding parser transition. -/
def processComment (acornParse : AcornParse) (st : ParseState)
    (cm : CommentTok) : ParseState :=
  match matchDirective cm.isBlock cm.text with
  | none => st
  | some (tag, rawExpression) =>
    match tag with
    | .tagIf =>
      let se := setExpression acornParse rawExpression cm.line cm.column "if"
      let f : Frame :=
        { expression := se.1, start := cm.start, endPos := cm.endPos,
          line := cm.line, column := cm.column, children := none,
          elseIfs := none, elseB := none, dummy := false, cursor := .inIf }
      { st with errors := st.errors ++ se.2, stack := f :: st.stack }
    | .tagElseif =>
      let se := setExpression acornParse rawExpression cm.line cm.column "elseif"
      let eiBlock : ElseIfBlock String :=
        { expression := se.1, start := cm.start, endPos := cm.endPos,
          line := cm.line, column := cm.column, children := none }
      match st.stack with
      | [] =>
        let errs := se.2 ++ [⟨.elseifWithoutIf,
          "Found #elseif without matching #if.", cm.line, cm.column⟩]
        -- push the dummy if, then append the elseif to it
        let f := { makeDummyFrame cm with elseIfs := some [eiBlock], cursor := Cursor.inElseifLast }
        { st with errors := st.errors ++ errs, stack := [f] }
      | f :: rest =>
        let errs := se.2 ++
          (if f.elseB.isSome then
            [⟨.elseifAfterElse, "Found invalid #elseif after #else.", cm.line, cm.column⟩]
           else [])
        let f := { f with elseIfs := some (f.elseIfs.getD [] ++ [eiBlock]), cursor := Cursor.inElseifLast }
        { st with errors := st.errors ++ errs, stack := f :: rest }
    | .tagElse =>
      let elseBlock : ElseBlock String :=
        { start := cm.start, endPos := cm.endPos, line := cm.line,
          column := cm.column, children := none }
      match st.stack with
      | [] =>
        let errs := [⟨ErrSubtype.elseWithoutIf,
          "Found #else without matching #if or #elseif.", cm.line, cm.column⟩]
        let f := { makeDummyFrame cm with elseB := some elseBlock, cursor := Cursor.inElse }
        { st with errors := st.errors ++ errs, stack := [f] }
      | f :: rest =>
        let errs :=
          if f.elseB.isSome then
            [⟨ErrSubtype.duplicateElse, "Found duplicate #else.", cm.line, cm.column⟩]
          else []
        -- the `else` field is overwritten even in the duplicate case
        let f := { f with elseB := some elseBlock, cursor := Cursor.inElse }
        { st with errors := st.errors ++ errs, stack := f :: rest }
    | .tagEndif =>
      match st.stack with
      | [] =>
        { st with errors := st.errors ++ [⟨.endifWithoutIf,
            "Found #endif without matching #if,#elseif, or #else.", cm.line, cm.column⟩] }
      | f :: rest =>
        let b : IfBlock String :=
          .mk f.expression f.start f.endPos f.line f.column none f.children
            f.elseIfs f.elseB ⟨cm.start, cm.endPos, cm.line, cm.column⟩ f.dummy
        match rest with
        | [] => { st with stack := [], toplevel := st.toplevel ++ [b] }
        | parent :: rest2 => { st with stack := attachChild parent b :: rest2 }

/-- The `missing_endif` entry recorded for one unterminated `#if` (the
message string is the source's verbatim). -/
def missingEndifEntry (line column : Int) : ErrEntry :=
  ⟨.missingEndif, "Found #if without matching #elseif.", line, column⟩

/-- `parse`: fold the comment stream through the transition function; at
end of input, record one `missing_endif` per `If` still on the if-stack in
stack-array order (outermost first — the model's stack head is the
innermost frame, hence the `reverse`).  Any recorded error aborts with the
full entry list (`CondCompParseError`); otherwise the top-level blocks are
returned. -/
def parse (acornParse : AcornParse) (comments : List CommentTok) :
    Except (List ErrEntry) (List (IfBlock String)) :=
  let st := comments.foldl (processComment acornParse) ⟨[], [], []⟩
  let errors := st.errors ++
    st.stack.reverse.map (fun f => missingEndifEntry f.line f.column)
  if errors.isEmpty then .ok st.toplevel else .error errors

/-! ## The entry points -/

/-- The failure outcome of one compilation call: a `CondCompParseError`
carrying its ordered entries, or a `CondCompEvalError`. -/
inductive CondCompFailure (V : Type) where
  | parseFailure (entries : List ErrEntry)
  | evalFailure (f : EvalFailure V)
deriving DecidableEq, Repr

/-- `condComp` (the suspension-capable entry point): parse, evaluate the
batch against the shared context, then reconstruct the text.  The comment
stream and the two host functions (`acornParse` for guard validation,
`sem` for guard meaning) abstract the external `acorn`/`vm` dependencies;
the returned context is the caller's, with all mutations performed by
evaluated guards. -/
def condComp (acornParse : AcornParse) (sem : String → Ctx → (Except V Bool) × Ctx)
    (comments : List CommentTok) (code : String) (c : Ctx) :
    (Except (CondCompFailure V) String) × Ctx :=
  match parse acornParse comments with
  | .error entries => (.error (.parseFailure entries), c)
  | .ok ifBlocks =>
    match evaluateIfs sem ifBlocks c with
    | (.error f, c') => (.error (.evalFailure f), c')
    | (.ok annotated, c') => (.ok (apply code.data annotated).asString, c')

/-- `condCompSync` (the suspension-incapable entry point): identical
pipeline, but evaluation uses the synchronous mode, where a suspension
point anywhere in the generated program is a compile-time failure (see
`evaluateIfsSync`). -/
def condCompSync (acornParse : AcornParse) (sem : String → Ctx → (Except V Bool) × Ctx)
    (awaitsSync : String → Bool) (comments : List CommentTok) (code : String) (c : Ctx) :
    (Except (CondCompFailure V) String) × Ctx :=
  match parse acornParse comments with
  | .error entries => (.error (.parseFailure entries), c)
  | .ok ifBlocks =>
    match evaluateIfsSync sem awaitsSync ifBlocks c with
    | (.error f, c') => (.error (.evalFailure f), c')
    | (.ok annotated, c') => (.ok (apply code.data annotated).asString, c')

/-! ## Specification-level functions used to state the claims -/

mutual

/-- Every guard expression of a block, in document order: the `#if`
guard, then the guards inside the `if` branch's children, then each
`#elseif`'s guard followed by the guards inside its children, then the
guards inside the `#else` branch's children. -/
def allGuardsOne : IfBlock E → List E
  | .mk expr _ _ _ _ _ cs eis eb _ _ =>
    expr :: (childGuards cs ++ (elseIfOptGuards eis ++ elseGuards eb))

/-- The guards inside an optional child-block list. -/
def childGuards : Option (List (IfBlock E)) → List E
  | some l => allGuardsList l
  | none => []

/-- The guards of an optional `elseif` list. -/
def elseIfOptGuards : Option (List (ElseIfBlock E)) → List E
  | some l => allGuardsElseIfs l
  | none => []

/-- `allGuardsOne` over an `elseif` list: each `elseif`'s own guard
followed by the guards inside its children. -/
def allGuardsElseIfs : List (ElseIfBlock E) → List E
  | [] => []
  | ⟨expr, _, _, _, _, cs⟩ :: rest =>
    (expr :: childGuards cs) ++ allGuardsElseIfs rest

/-- The guards inside an `else` branch's children. -/
def elseGuards : Option (ElseBlock E) → List E
  | some ⟨_, _, _, _, ebCs⟩ => childGuards ebCs
  | none => []

/-- `allGuardsOne` over a block list. -/
def allGuardsList : List (IfBlock E) → List E
  | [] => []
  | b :: bs => allGuardsOne b ++ allGuardsList bs

end

/-- Sequentially evaluate a list of guard expressions against the
context, keeping only the context updates: the context a batch run ends
with, reconstructed from its evaluation trace. -/
def replayCtx (sem : E → Ctx → (Except V Bool) × Ctx) (tr : List E) (c : Ctx) : Ctx :=
  tr.foldl (fun c e => (sem e c).2) c

/-- `s.data.asString` rebuilds `s`. -/
theorem asString_data (s : String) : s.data.asString = s := by
  cases s
  rfl

/-! ## Claims -/

/-- C9: the spec claims `isNewLineChar` treats exactly LF (0x000A),
CR (0x000D), LS (0x2028) and PS (0x2029) as line terminators, and that
`isEmptyLine` holds iff the position is 0 or preceded by one of those
four.  The source tests `0x2028` twice and never `0x2029`, so PS is not
recognized: `isNewLineChar 0x2029 = false`, and a position right after a
PS character does not count as beginning-of-line.  The first three
conjuncts show LF, CR and LS behave as claimed; the last two exhibit the
divergence on PS. -/
theorem isNewLineChar_misses_ps :
    isNewLineChar 0x000A = true ∧ isNewLineChar 0x000D = true ∧
    isNewLineChar 0x2028 = true ∧ isNewLineChar 0x2029 = false ∧
    isEmptyLine [Char.ofNat 0x2029] 1 = false := by
  decide

/-- C8: the spec claims each of LF, lone CR, CRLF, U+2028 and U+2029
counts as one line terminator sequence for the newline slurp after a cut.
The source's `slurpSingleNewLineRight` handles LF, CRLF, LS and PS but
returns the position unchanged for a lone CR (its own comment cites the
ECMAScript `LineTerminatorSequence` production, which includes a lone CR),
so a cut on its own line terminated by a lone CR leaves that CR behind.
The first conjunct exhibits the divergence; the rest show the four handled
sequences. -/
theorem slurpSingleNewLineRight_misses_lone_cr :
    slurpSingleNewLineRight ['\r', 'a'] 0 = 0 ∧
    slurpSingleNewLineRight ['\n', 'a'] 0 = 1 ∧
    slurpSingleNewLineRight ['\r', '\n', 'a'] 0 = 2 ∧
    slurpSingleNewLineRight [Char.ofNat 0x2028, 'a'] 0 = 1 ∧
    slurpSingleNewLineRight [Char.ofNat 0x2029, 'a'] 0 = 1 := by
  decide

/-- C5: an input whose comment stream contains no directive comment
passes through unchanged (same text, same context, no failure); and
whenever the computed cut list is empty, `apply` returns the input text
unchanged.  Hence re-running the transform on its own output is a no-op
once no directives remain. -/
theorem condComp_no_directive_pass_through (acornParse : AcornParse)
    (sem : String → Ctx → (Except V Bool) × Ctx)
    (comments : List CommentTok) (code : String) (c : Ctx)
    (hnd : ∀ cm ∈ comments, matchDirective cm.isBlock cm.text = none) :
    condComp acornParse sem comments code c = (.ok code, c) ∧
    (∀ (code2 : List Char) (blocks : List (IfBlock String)),
      (makeCuts blocks Cuts.init).isEmpty = true → apply code2 blocks = code2) := by
  constructor
  · have hfold : ∀ (cms : List CommentTok),
        (∀ cm ∈ cms, matchDirective cm.isBlock cm.text = none) →
        cms.foldl (processComment acornParse) ⟨[], [], []⟩ = ⟨[], [], []⟩ := by
      intro cms h
      induction cms with
      | nil => rfl
      | cons cm rest ih =>
        have h0 : matchDirective cm.isBlock cm.text = none := h cm (List.mem_cons_self _ _)
        have hstep : processComment acornParse ⟨[], [], []⟩ cm = ⟨[], [], []⟩ := by
          simp [processComment, h0]
        simpa [hstep] using ih (fun x hx => h x (List.mem_cons_of_mem _ hx))
    have hparse : parse acornParse comments = .ok [] := by
      simp [parse, hfold comments hnd]
    simp [condComp, hparse, evaluateIfs, runIfList, setEvaluationResults, apply,
      makeCuts, Cuts.isEmpty, Cuts.init, asString_data]
  · intro code2 blocks h
    simp [apply, h]

/-- Witness for `condComp_no_directive_pass_through`: a concrete
directive-free input passes through unchanged. -/
theorem condComp_no_directive_pass_through_witness :
    condComp (fun _ => .ok ⟨[]⟩)
      (fun (_ : String) (c : Nat) => ((.ok true : Except Nat Bool), c))
      [⟨false, " just a note", 0, 14, 1, 0⟩] "let x = 1;" 0 =
      (.ok "let x = 1;", 0) :=
  (condComp_no_directive_pass_through _ _ _ _ _ (by decide)).1

/-- The comment stream of `n` nested `#if A` line comments with no
`#endif`: the i-th (0-based) comment sits at line `i+1`, column `i+2`
(distinct lines and columns, so the error positions are observably each
directive's own), offsets `20*i .. 20*i+8`. -/
def nestedIfComments (n : Nat) : List CommentTok :=
  (List.range n).map (fun (i : Nat) =>
    ⟨false, " #if A", 20 * (i : Int), 20 * (i : Int) + 8, (i : Int) + 1, (i : Int) + 2⟩)

/-- The frame each `#if A` of `nestedIfComments` pushes. -/
def nestedIfFrame (i : Nat) : Frame :=
  { expression := "A", start := 20 * (i : Int), endPos := 20 * (i : Int) + 8,
    line := (i : Int) + 1, column := (i : Int) + 2, children := none,
    elseIfs := none, elseB := none, dummy := false, cursor := .inIf }

/-- C4: parsing `n` nested unterminated `#if`s (for every depth `n > 0`)
records exactly one `missing_endif` error per unterminated `#if`, each
pinned to that `#if`'s own line and column, in outermost-first order, and
no other errors.  (`hA` pins down the external host parser's verdict on
the guard text `A`: a single expression statement spanning it.) -/
theorem parse_missing_endif_outermost_first (acornParse : AcornParse) (n : Nat)
    (hA : acornParse "A" = .ok ⟨[⟨"ExpressionStatement", 0, 1⟩]⟩) (hn : 0 < n) :
    parse acornParse (nestedIfComments n) =
      .error ((List.range n).map (fun (i : Nat) =>
        missingEndifEntry ((i : Int) + 1) ((i : Int) + 2))) := by
  have hm : matchDirective false " #if A" = some (Tag.tagIf, "A") := by decide
  have hstep : ∀ (i : Nat) (st : ParseState),
      processComment acornParse st
        ⟨false, " #if A", 20 * (i : Int), 20 * (i : Int) + 8, (i : Int) + 1, (i : Int) + 2⟩ =
        { st with stack := nestedIfFrame i :: st.stack } := by
    intro i st
    have hse : setExpression acornParse "A" ((i : Int) + 1) ((i : Int) + 2) "if" = ("A", []) := by
      simp [setExpression, parseExpression, hA, strSlice]
      rfl
    simp [processComment, hm, hse, nestedIfFrame]
  have hfold : ∀ (k a : Nat) (st : ParseState),
      (((List.range' a k).map (fun (i : Nat) =>
          (⟨false, " #if A", 20 * (i : Int), 20 * (i : Int) + 8,
            (i : Int) + 1, (i : Int) + 2⟩ : CommentTok))).foldl
        (processComment acornParse) st) =
        { st with stack := ((List.range' a k).map nestedIfFrame).reverse ++ st.stack } := by
    intro k
    induction k with
    | zero => intro a st; rfl
    | succ k ih =>
      intro a st
      rw [List.range'_succ]
      rw [List.map_cons, List.foldl_cons, hstep a st, ih (a + 1)]
      simp [List.append_assoc]
  have hr : List.range n = List.range' 0 n := by
    simpa using (List.range_eq_range' n)
  unfold parse nestedIfComments
  rw [hr, hfold n 0 ⟨[], [], []⟩]
  cases n with
  | zero => exact absurd hn (lt_irrefl 0)
  | succ m =>
    simp only [List.append_nil, List.nil_append, List.reverse_reverse, List.map_map]
    rw [List.range'_succ]
    simp [Function.comp, nestedIfFrame]

/-- Witness for `parse_missing_endif_outermost_first` at depth 2. -/
theorem parse_missing_endif_outermost_first_witness :
    parse (fun _ => .ok ⟨[⟨"ExpressionStatement", 0, 1⟩]⟩) (nestedIfComments 2) =
      .error ((List.range 2).map (fun i =>
        missingEndifEntry ((i : Int) + 1) ((i : Int) + 2))) :=
  parse_missing_endif_outermost_first _ 2 (by rfl) (by decide)

/-- C7: guard-text validation accepts a raw guard string iff the host
parser parses it as exactly one expression statement with no trailing
statements (so empty text, multiple statements, non-expression statements
and syntax errors are all rejected); on acceptance the stored expression
is the input sliced to the exact expression span; empty raw text and
every rejection record an `invalid_expression` parse error at the
directive's line and column (never at a position inside the
expression), leaving the stored expression at `''`. -/
theorem parseExpression_accepts_iff_single_expression_statement
    (acornParse : AcornParse) (raw : String) (line column : Int) :
    ((∃ code, parseExpression acornParse raw = .ok code) ↔
      (∃ st, acornParse raw = .ok ⟨[st]⟩ ∧ st.stmtType = "ExpressionStatement")) ∧
    (∀ st, acornParse raw = .ok ⟨[st]⟩ → st.stmtType = "ExpressionStatement" →
      parseExpression acornParse raw = .ok (strSlice raw st.start st.endPos)) ∧
    (∀ msg, parseExpression acornParse raw = .error msg →
      ∃ m, setExpression acornParse raw line column "if" =
        ("", [⟨.invalidExpression, m, line, column⟩])) ∧
    (raw = "" → setExpression acornParse raw line column "if" =
      ("", [⟨.invalidExpression, "Found #if without expression.", line, column⟩])) ∧
    (∀ code, parseExpression acornParse raw = .ok code → raw ≠ "" →
      setExpression acornParse raw line column "if" = (code, [])) := by
  refine ⟨?_, ?_, ?_, ?_, ?_⟩
  · constructor
    · rintro ⟨code, hok⟩
      unfold parseExpression at hok
      rcases h : acornParse raw with e | prog
      · rw [h] at hok; cases hok
      · rw [h] at hok
        rcases prog with ⟨body⟩
        rcases hb : body with _ | ⟨st, rest⟩
        · simp [hb] at hok
        · simp only [hb, List.head?] at hok
          by_cases ht : st.stmtType = "ExpressionStatement"
          · simp only [ht, ne_eq, not_true_eq_false, if_false, ite_not] at hok
            rcases hr : rest with _ | ⟨st2, rest2⟩
            · subst hr
              exact ⟨st, rfl, ht⟩
            · rw [hr] at hok; simp at hok
          · simp [ht] at hok
    · rintro ⟨st, hok, ht⟩
      refine ⟨strSlice raw st.start st.endPos, ?_⟩
      unfold parseExpression
      rw [hok]
      simp [ht]
  · intro st hok ht
    unfold parseExpression
    rw [hok]
    simp [ht]
  · intro msg herr
    unfold setExpression
    by_cases hr : raw = ""
    · simp [hr]
    · simp only [hr, if_false]
      rw [herr]
      exact ⟨msg, rfl⟩
  · intro hr
    simp [setExpression, hr]
  · intro code hok hr
    simp [setExpression, hr, hok]

/-- Witness for `parseExpression_accepts_iff_single_expression_statement`:
a concrete host parser accepting `A` as a single expression statement. -/
theorem parseExpression_accepts_witness :
    parseExpression
      (fun s => if s = "A" then Except.ok ⟨[⟨"ExpressionStatement", 0, 1⟩]⟩
                else Except.ok ⟨[]⟩) "A" = .ok (strSlice "A" 0 1) :=
  (parseExpression_accepts_iff_single_expression_statement _ "A" 5 7).2.1
    ⟨"ExpressionStatement", 0, 1⟩ (by rfl) (by rfl)

/-- C3 counterexample tree: a top-level `#if T` at line 1, column 0 whose
taken branch contains a nested `#if X` at line 3 whose guard throws. -/
def c3Blocks : List (IfBlock String) :=
  [.mk "T" 0 5 1 0 none
    (some [.mk "X" 6 9 3 0 none none none none ⟨10, 12, 4, 0⟩ false])
    none none ⟨13, 17, 5, 0⟩ false]

/-- C3 counterexample guard semantics: `T` is truthy, everything else
throws the value `42`. -/
def c3Sem : String → Nat → (Except Nat Bool) × Nat :=
  fun e c => if e = "T" then (.ok true, c) else (.error 42, c)

/-- C3 counterexample: the guard that throws belongs to the nested `#if X`
directive at line 3, and the claim says the surfaced failure carries line 3,
column 0 with the original thrown value (42) as cause — and that a
non-array batch-program result is pinned to line 0, column 0.  The code
instead surfaces line 1, column 0 (the enclosing `#if`'s position, because
the enclosing `try`'s `catch` re-wraps the child's already-wrapped error)
with the wrapper object as cause; and although the program result here is
the non-array wrapper object, the failure is not pinned to line 0 /
column 0 either. -/
theorem evaluateIfs_nested_throw_misattributed :
    evaluateIfs c3Sem c3Blocks 0 =
      (.error ⟨1, 0, JsVal.errObj (.user 42) 3 0⟩, 0) ∧
    (1 : Int) ≠ 3 ∧ (1 : Int) ≠ 0 ∧
    JsVal.errObj (JsVal.user 42) 3 0 ≠ JsVal.user 42 :=
  ⟨rfl, by decide, by decide, by decide⟩

/-- C3 amended: any thrown guard value aborts the whole batch at the first
failure and exactly one evaluation failure is surfaced, built from the
thrown wrapper object's own `line`/`column`/`cause` fields (the non-array
program result is that wrapper, not a failure at line 0, column 0).  A
top-level `#if`'s own guard throw carries that directive's line/column and
the original thrown value as cause; an error propagating out of a taken
`if`/`elseif` branch's children is wrapped again with the *enclosing*
directive's line/column (so nested guards are attributed to the outermost
enclosing `#if`/`#elseif`, not to the throwing directive); propagation
through an `#else` branch adds no wrapper.  Attempting to suspend in the
synchronous mode is an evaluation failure pinned to line 0, column 0. -/
theorem evaluateIfs_failure_attribution :
    (∀ (sem : E → Ctx → (Except V Bool) × Ctx) (blocks : List (IfBlock E)) (c : Ctx)
        (t : JsVal V) (c' : Ctx) (tr : List (E × Ctx)),
      runIfList sem blocks c = (.error t, c', tr) →
      evaluateIfs sem blocks c = (.error (makeEvaluationError t), c')) ∧
    (∀ (sem : E → Ctx → (Except V Bool) × Ctx) (b : IfBlock E) (bs : List (IfBlock E))
        (c : Ctx) (v : V) (c1 : Ctx),
      sem b.expression c = (.error v, c1) →
      evaluateIfs sem (b :: bs) c = (.error ⟨b.line, b.column, .user v⟩, c1)) ∧
    (∀ (sem : E → Ctx → (Except V Bool) × Ctx) (b : IfBlock E) (c c1 : Ctx)
        (l : List (IfBlock E)) (t : JsVal V) (c2 : Ctx) (tr : List (E × Ctx)),
      sem b.expression c = (.ok true, c1) → b.children = some l →
      runIfList sem l c1 = (.error t, c2, tr) →
      (runIf sem b c).1 = .error (.errObj t b.line b.column)) ∧
    (∀ (sem : E → Ctx → (Except V Bool) × Ctx) (b : IfBlock E) (c c1 : Ctx)
        (l : List (IfBlock E)) (t : JsVal V) (c2 : Ctx) (tr : List (E × Ctx))
        (s e ln col : Int),
      sem b.expression c = (.ok false, c1) → b.elseIfs = none →
      b.elseB = some ⟨s, e, ln, col, some l⟩ →
      runIfList sem l c1 = (.error t, c2, tr) →
      (runIf sem b c).1 = .error t) ∧
    (∀ (sem : E → Ctx → (Except V Bool) × Ctx) (awaitsSync : E → Bool)
        (blocks : List (IfBlock E)) (c : Ctx),
      anyGuard awaitsSync blocks = true →
      evaluateIfsSync sem awaitsSync blocks c = (.error ⟨0, 0, JsVal.hostError⟩, c)) := by
  refine ⟨?_, ?_, ?_, ?_, ?_⟩
  · intro sem blocks c t c' tr h
    unfold evaluateIfs
    rw [h]
  · intro sem b bs c v c1 h
    rcases b with ⟨expr, s, p, ln, col, tb, cs, eis, eb, en, d⟩
    simp only [IfBlock.expression] at h
    unfold evaluateIfs runIfList runIf
    rw [h]
    simp [makeEvaluationError, IfBlock.line, IfBlock.column]
  · intro sem b c c1 l t c2 tr h1 h2 h3
    rcases b with ⟨expr, s, p, ln, col, tb, cs, eis, eb, en, d⟩
    simp only [IfBlock.expression] at h1
    simp only [IfBlock.children] at h2
    subst h2
    unfold runIf
    rw [h1]
    simp [h3, IfBlock.line, IfBlock.column]
  · intro sem b c c1 l t c2 tr s e ln col h1 h2 h3 h4
    rcases b with ⟨expr, bs2, p, bln, bcol, tb, cs, eis, eb, en, d⟩
    simp only [IfBlock.expression] at h1
    simp only [IfBlock.elseIfs] at h2
    simp only [IfBlock.elseB] at h3
    subst h2
    subst h3
    unfold runIf
    rw [h1]
    simp [runIfFinal, h4]
  · intro sem awaitsSync blocks c h
    unfold evaluateIfsSync
    rw [h]
    rfl

/-- Witness for `evaluateIfs_failure_attribution`: a top-level guard throw
is attributed to its own directive (line 7, column 2) with the original
thrown value as cause; a suspension point in sync mode is pinned to
line 0, column 0. -/
theorem evaluateIfs_failure_attribution_witness :
    evaluateIfs c3Sem [IfBlock.mk "X" 0 5 7 2 none none none none ⟨6, 9, 8, 0⟩ false] 0 =
      (.error ⟨7, 2, JsVal.user 42⟩, 0) ∧
    evaluateIfsSync c3Sem (fun e => e = "X")
      [IfBlock.mk "X" 0 5 7 2 none none none none ⟨6, 9, 8, 0⟩ false] 0 =
      (.error ⟨0, 0, JsVal.hostError⟩, 0) :=
  ⟨evaluateIfs_failure_attribution.2.1 c3Sem _ [] 0 42 0 (by rfl),
   evaluateIfs_failure_attribution.2.2.2.2 c3Sem _ _ 0 (by rfl)⟩

/-- C10 counterexample comment stream: `#if T` / `#elseif AW` / `#endif`
line comments for `c10Code`. -/
def c10Comments : List CommentTok :=
  [⟨false, " #if T", 0, 8, 1, 0⟩,
   ⟨false, " #elseif AW", 11, 24, 3, 0⟩,
   ⟨false, " #endif", 27, 36, 5, 0⟩]

/-- C10 counterexample source text. -/
def c10Code : String := "// #if T\n1\n// #elseif AW\n2\n// #endif"

/-- C10 host parser: every guard is a single expression statement spanning
its text. -/
def c10Acorn : AcornParse := fun s =>
  .ok ⟨[⟨"ExpressionStatement", 0, (s.data.length : Int)⟩]⟩

/-- C10 guard semantics: every evaluated guard is truthy and mutates
nothing. -/
def c10Sem : String → Nat → (Except Nat Bool) × Nat := fun _ c => (.ok true, c)

/-- C10 counterexample: the `#elseif AW` guard contains a suspension point
(`awaitsSync "AW" = true`) but is never evaluated — the evaluation trace
of the suspension-capable run is `["T"]` only, so no guard yields a
pending result.  Still the two entry points disagree: the
suspension-capable one succeeds with `"1\n"` while the synchronous one
fails at line 0, column 0, because the suspension point breaks the
compilation of the whole generated program even inside an untaken
branch. -/
theorem condCompSync_differs_despite_no_pending :
    condComp c10Acorn c10Sem c10Comments c10Code 0 = (.ok "1\n", 0) ∧
    condCompSync c10Acorn c10Sem (fun e => e = "AW") c10Comments c10Code 0 =
      (.error (.evalFailure ⟨0, 0, JsVal.hostError⟩), 0) ∧
    (match parse c10Acorn c10Comments with
     | .ok bl => ((runIfList c10Sem bl (0 : Nat)).2.2.map Prod.fst)
     | .error _ => []) = ["T"] ∧
    ((fun e => e = "AW") "T") = false :=
  ⟨rfl, rfl, rfl, by decide⟩

/-- C10 amended: when no guard expression anywhere in the parsed tree
contains a suspension point (not merely "no guard suspends during the
run" — in the synchronous mode a suspension point even in a guard that is
never evaluated fails the whole program's compilation), the synchronous
and suspension-capable entry points produce the same output text, the
same final context, and the same failure outcome. -/
theorem condCompSync_eq_condComp_of_no_suspension_points
    (acornParse : AcornParse) (sem : String → Ctx → (Except V Bool) × Ctx)
    (awaitsSync : String → Bool) (comments : List CommentTok) (code : String) (c : Ctx)
    (h : ∀ blocks, parse acornParse comments = .ok blocks →
      anyGuard awaitsSync blocks = false) :
    condCompSync acornParse sem awaitsSync comments code c =
      condComp acornParse sem comments code c := by
  unfold condComp condCompSync evaluateIfsSync
  rcases hp : parse acornParse comments with e | blocks
  · rfl
  · simp [h blocks hp]

/-- Witness for `condCompSync_eq_condComp_of_no_suspension_points` on a
concrete directive-free input. -/
theorem condCompSync_eq_condComp_witness :
    condCompSync c10Acorn c10Sem (fun e => e = "AW") [] "x" 0 =
      condComp c10Acorn c10Sem [] "x" 0 :=
  condCompSync_eq_condComp_of_no_suspension_points _ _ _ _ _ _
    (fun blocks hp => by
      have hb : blocks = [] := by
        have : (Except.ok [] : Except (List ErrEntry) (List (IfBlock String))) = .ok blocks := hp
        exact (Except.ok.inj this).symm
      subst hb
      rfl)

/-- Whole-word boundary after a tag: end of the line or whitespace. -/
def startsAtBoundary : List Char → Bool
  | [] => true
  | c :: _ => isJsRegexSpace c

/-- Modelled from the spec: \"begins with a literal tag\" — a `#` followed
by one of the four tags as a whole word (followed by the line's end or
whitespace). -/
def tagBoundaryOk (l2 : List Char) : Bool :=
  match l2 with
  | '#' :: t =>
    match matchTag t with
    | some (_, rest) => startsAtBoundary rest
    | none => false
  | _ => false

/-- Modelled from the spec: the claim's acceptance test for C6 — the
comment's *first line*, after ignoring leading whitespace and (for block
comments) one leading `*` with surrounding whitespace, begins with a
literal tag `#if`/`#elseif`/`#else`/`#endif` as a whole word (followed by
the line's end or whitespace). -/
def firstLineBeginsWithTag (isBlock : Bool) (text : String) : Bool :=
  tagBoundaryOk (stripLead isBlock
    (text.data.takeWhile (fun c => !isLineTerminatorChar c)))

/-- C6 counterexample: the block comment text of
`/**<newline> * #if true<newline> */` (the repository's own
"c-style comment multiline" test) is recognized as an `#if true`
directive although its first line is just `*`, which does not begin with
any tag. -/
theorem matchDirective_second_line_recognized :
    matchDirective true "*\n * #if true\n " = some (.tagIf, "true") ∧
    firstLineBeginsWithTag true "*\n * #if true\n " = false := by
  decide

/-- `(l.asString).data` is `l` again. -/
theorem data_asString (l : List Char) : (l.asString).data = l := rfl

/-- The guard text captured by the line-comment payload contains no line
terminator (the `(.+)$` group must reach the end of the text). -/
theorem matchPayloadSingle_chars (rest e : List Char)
    (h : matchPayloadSingle rest = some (some e)) :
    ∀ c ∈ e, isLineTerminatorChar c = false := by
  unfold matchPayloadSingle at h
  dsimp only at h
  split at h
  · cases h
  · split at h
    · split at h
      · cases h
      · split at h
        · cases h
        · next hany =>
          obtain rfl : _ = e := Option.some.inj (Option.some.inj h)
          intro c hc
          by_contra hne
          exact hany (List.any_eq_true.mpr ⟨c, hc, by simpa using hne⟩)
    · cases h

/-- The guard text captured by the block-comment payload contains no line
terminator (the `(.+)` group stops at the first terminator). -/
theorem matchPayloadMulti_chars (rest e : List Char)
    (h : matchPayloadMulti rest = some (some e)) :
    ∀ c ∈ e, isLineTerminatorChar c = false := by
  unfold matchPayloadMulti at h
  dsimp only at h
  split at h
  · cases h
  · split at h
    · cases h
    · split at h
      · split at h
        · cases h
        · split at h
          · cases h
          · obtain rfl : _ = e := Option.some.inj (Option.some.inj h)
            intro c hc
            have hp := List.mem_takeWhile_imp hc
            simpa using hp
      · cases h

/-- The remainder returned by the tag alternation is a sublist of its
input. -/
theorem matchTag_rest_sublist (t rest : List Char) (tag : Tag)
    (h : matchTag t = some (tag, rest)) : rest.Sublist t := by
  unfold matchTag at h
  split at h
  · cases h; exact List.drop_sublist _ _
  · split at h
    · cases h; exact List.drop_sublist _ _
    · split at h
      · cases h; exact List.drop_sublist _ _
      · split at h
        · cases h; exact List.drop_sublist _ _
        · cases h

/-- For terminator-free payload text, the line-comment payload matches
exactly when the text is empty or starts with whitespace. -/
theorem matchPayloadSingle_isSome_of_no_terminator (rest : List Char)
    (h : ∀ c ∈ rest, isLineTerminatorChar c = false) :
    (matchPayloadSingle rest).isSome = startsAtBoundary rest := by
  unfold matchPayloadSingle startsAtBoundary
  rcases rest with _ | ⟨c0, t0⟩
  · rfl
  · dsimp only
    by_cases hws : isJsRegexSpace c0
    · rw [if_pos hws]
      rcases hd : (c0 :: t0).drop ((c0 :: t0).takeWhile isJsRegexSpace).length with _ | ⟨c1, t1⟩
      · simp [hws]
      · have hsub : (c1 :: t1).Sublist (c0 :: t0) := hd ▸ List.drop_sublist _ _
        have hany : ((c1 :: t1).any fun ch => isLineTerminatorChar ch) = false := by
          rw [List.any_eq_false]
          intro x hx
          simp [h x (hsub.subset hx)]
        simp [hany, hws]
    · rw [if_neg hws]
      simp [hws]

/-- For terminator-free payload text, the block-comment payload matches
exactly when the text is empty or starts with whitespace. -/
theorem matchPayloadMulti_isSome_of_no_terminator (rest : List Char)
    (h : ∀ c ∈ rest, isLineTerminatorChar c = false) :
    (matchPayloadMulti rest).isSome = startsAtBoundary rest := by
  unfold matchPayloadMulti startsAtBoundary
  rcases rest with _ | ⟨c0, t0⟩
  · rfl
  · dsimp only
    rw [if_neg (by simp [h c0 (List.mem_cons_self c0 t0)])]
    by_cases hws : isJsRegexSpace c0
    · rw [if_pos hws]
      have hanyw : (((c0 :: t0).takeWhile isJsRegexSpace).any
          fun ch => isLineTerminatorChar ch) = false := by
        rw [List.any_eq_false]
        intro x hx
        simp [h x ((List.takeWhile_sublist _).subset hx)]
      rw [if_neg (by simp [hanyw])]
      rcases hd : (c0 :: t0).drop ((c0 :: t0).takeWhile isJsRegexSpace).length with _ | ⟨c1, t1⟩
      · simp [hws]
      · simp [hws]
    · rw [if_neg hws]
      simp [hws]

/-- A successful directive match never draws guard text from beyond the
matched line: every character of the raw expression is a
non-terminator. -/
theorem matchDirectiveAt_chars (isBlock : Bool) (l : List Char) (tag : Tag)
    (e : String) (h : matchDirectiveAt isBlock l = some (tag, e)) :
    ∀ c ∈ e.data, isLineTerminatorChar c = false := by
  unfold matchDirectiveAt matchHashTail at h
  split at h
  · split at h
    · cases h
    · next payload heq =>
      split at h
      · cases h
      · next payload2 heq2 =>
        have hinj := Option.some.inj h
        have he : (payload2.getD []).asString = e := congrArg Prod.snd hinj
        rcases payload2 with _ | pe
        · intro c hc
          rw [← he] at hc
          simp [data_asString] at hc
        · rw [← he, data_asString]
          rcases hb : isBlock with _ | _
          · rw [hb] at heq2
            exact matchPayloadSingle_chars _ _ heq2
          · rw [hb] at heq2
            exact matchPayloadMulti_chars _ _ heq2
  · cases h



theorem stripLead_sublist (isBlock : Bool) (l : List Char) :
    (stripLead isBlock l).Sublist l := by
  unfold stripLead
  dsimp only
  split
  · split
    · next t heq =>
      have h1 : (l.dropWhile isJsRegexSpace).Sublist l := List.dropWhile_sublist _
      rw [heq] at h1
      exact ((List.dropWhile_sublist _).trans (List.sublist_cons_self _ _)).trans h1
    · exact List.dropWhile_sublist _
  · exact List.dropWhile_sublist _

theorem matchHashTail_isSome_of_no_terminator (isBlock : Bool) (l2 : List Char)
    (h : ∀ c ∈ l2, isLineTerminatorChar c = false) :
    (matchHashTail isBlock l2).isSome = tagBoundaryOk l2 := by
  unfold matchHashTail tagBoundaryOk
  rcases l2 with _ | ⟨ch, t⟩
  · rfl
  · by_cases hch : ch = '#'
    · subst hch
      rcases hmt : matchTag t with _ | ⟨tag, rest⟩
      · simp [hmt]
      · have hrest : ∀ c ∈ rest, isLineTerminatorChar c = false := fun c hc =>
          h c (List.mem_cons_of_mem _ ((matchTag_rest_sublist t rest tag hmt).subset hc))
        rcases isBlock with _ | _
        · have hiso := matchPayloadSingle_isSome_of_no_terminator rest hrest
          rcases hp : matchPayloadSingle rest with _ | p <;>
            simp [hmt, hp, ← hiso]
        · have hiso := matchPayloadMulti_isSome_of_no_terminator rest hrest
          rcases hp : matchPayloadMulti rest with _ | p <;>
            simp [hmt, hp, ← hiso]
    · simp [hch]

theorem blockDirectiveScan_isSome_iff (atStart : Bool) (l : List Char) :
    (blockDirectiveScan atStart l).isSome = true ↔
      ((atStart = true ∧ (matchDirectiveAt true l).isSome = true) ∨
        ∃ l1 c l2, l = l1 ++ c :: l2 ∧ isLineTerminatorChar c = true ∧
          (matchDirectiveAt true l2).isSome = true) := by
  induction l generalizing atStart with
  | nil =>
    constructor
    · intro hsc
      simp [blockDirectiveScan] at hsc
    · rintro (⟨ha, hm⟩ | ⟨l1, c, l2, habs, _, _⟩)
      · have h0 : matchDirectiveAt true ([] : List Char) = none := by decide
        rw [h0] at hm
        simp at hm
      · exact absurd habs (by simp)
  | cons c t ih =>
    unfold blockDirectiveScan
    dsimp only
    by_cases ha : atStart = true
    · subst ha
      rw [if_pos rfl]
      rcases hm : matchDirectiveAt true (c :: t) with _ | r
      · simp only [Option.elim, Option.isSome_none, Bool.false_eq_true, and_false, false_or]
        rw [ih (isLineTerminatorChar c)]
        constructor
        · rintro (⟨hterm, hm2⟩ | ⟨l1, c1, l2, heq, hterm, hm2⟩)
          · exact ⟨[], c, t, rfl, hterm, hm2⟩
          · exact ⟨c :: l1, c1, l2, by rw [heq, List.cons_append], hterm, hm2⟩
        · rintro ⟨l1, c1, l2, heq, hterm, hm2⟩
          rcases l1 with _ | ⟨c2, l1t⟩
          · obtain ⟨rfl, rfl⟩ := List.cons.inj heq
            exact Or.inl ⟨hterm, hm2⟩
          · obtain ⟨rfl, ht⟩ := List.cons.inj (by simpa using heq)
            exact Or.inr ⟨l1t, c1, l2, ht, hterm, hm2⟩
      · simp [Option.elim]
    · have ha2 : atStart = false := by
        rcases atStart with _ | _
        · rfl
        · exact absurd rfl ha
      subst ha2
      rw [if_neg (by simp)]
      rw [ih (isLineTerminatorChar c)]
      constructor
      · rintro (⟨hterm, hm2⟩ | ⟨l1, c1, l2, heq, hterm, hm2⟩)
        · exact Or.inr ⟨[], c, t, rfl, hterm, hm2⟩
        · exact Or.inr ⟨c :: l1, c1, l2, by rw [heq, List.cons_append], hterm, hm2⟩
      · rintro (⟨hfalse, _⟩ | ⟨l1, c1, l2, heq, hterm, hm2⟩)
        · simp at hfalse
        · rcases l1 with _ | ⟨c2, l1t⟩
          · obtain ⟨rfl, rfl⟩ := List.cons.inj heq
            exact Or.inl ⟨hterm, hm2⟩
          · obtain ⟨rfl, ht⟩ := List.cons.inj (by simpa using heq)
            exact Or.inr ⟨l1t, c1, l2, ht, hterm, hm2⟩

theorem blockDirectiveScan_chars (atStart : Bool) (l : List Char) (tag : Tag)
    (e : String) (h : blockDirectiveScan atStart l = some (tag, e)) :
    ∀ c ∈ e.data, isLineTerminatorChar c = false := by
  induction l generalizing atStart with
  | nil => simp [blockDirectiveScan] at h
  | cons c t ih =>
    unfold blockDirectiveScan at h
    dsimp only at h
    by_cases ha : atStart = true
    · rw [if_pos ha] at h
      rcases hm : matchDirectiveAt true (c :: t) with _ | r
      · rw [hm] at h
        simp only [Option.elim] at h
        exact ih _ h
      · rw [hm] at h
        simp only [Option.elim] at h
        obtain rfl := Option.some.inj h
        exact matchDirectiveAt_chars true (c :: t) tag e hm
    · rw [if_neg ha] at h
      exact ih _ h

/-- C6 amended: a comment whose text contains no line terminator (every
line comment's text is such) is recognized iff its single line, ignoring
leading whitespace (and, for block form, one leading `*`), begins with a
literal tag as a whole word.  A block comment's (multi-line) text is
recognized iff the directive pattern matches at the start of the text or
immediately after *some* line terminator inside it — that is, possibly on
a line after the first, the earliest anchor winning — contrary to the
claim that only the first line is inspected.  In both forms the raw guard
expression is drawn solely from the matched line: it never contains a
line terminator, so lines after the matched one never contribute to the
guard expression. -/
theorem matchDirective_characterization (text : String) :
    ((∀ c ∈ text.data, isLineTerminatorChar c = false) →
      (matchDirective false text).isSome = firstLineBeginsWithTag false text ∧
      (matchDirective true text).isSome = firstLineBeginsWithTag true text) ∧
    ((matchDirective true text).isSome = true ↔
      ((matchDirectiveAt true text.data).isSome = true ∨
        ∃ l1 c l2, text.data = l1 ++ c :: l2 ∧ isLineTerminatorChar c = true ∧
          (matchDirectiveAt true l2).isSome = true)) ∧
    (∀ (isBlock : Bool) (tag : Tag) (e : String),
      matchDirective isBlock text = some (tag, e) →
      ∀ c ∈ e.data, isLineTerminatorChar c = false) := by
  refine ⟨?_, ?_, ?_⟩
  · intro h
    have htk : text.data.takeWhile (fun c => !isLineTerminatorChar c) = text.data := by
      rw [List.takeWhile_eq_self_iff]
      intro c hc
      simp [h c hc]
    constructor
    · show (matchDirectiveAt false text.data).isSome = _
      unfold matchDirectiveAt firstLineBeginsWithTag
      rw [htk]
      exact matchHashTail_isSome_of_no_terminator false _
        (fun c hc => h c ((stripLead_sublist false text.data).subset hc))
    · have hiff := blockDirectiveScan_isSome_iff true text.data
      have hnosplit : ¬ ∃ l1 c l2, text.data = l1 ++ c :: l2 ∧
          isLineTerminatorChar c = true ∧ (matchDirectiveAt true l2).isSome = true := by
        rintro ⟨l1, c, l2, heq, hterm, _⟩
        have hmem : c ∈ text.data := by
          rw [heq]
          simp
        rw [h c hmem] at hterm
        exact absurd hterm (by simp)
      have hAt : (matchDirectiveAt true text.data).isSome = firstLineBeginsWithTag true text := by
        unfold matchDirectiveAt firstLineBeginsWithTag
        rw [htk]
        exact matchHashTail_isSome_of_no_terminator true _
          (fun c hc => h c ((stripLead_sublist true text.data).subset hc))
      have hs : (blockDirectiveScan true text.data).isSome =
          (matchDirectiveAt true text.data).isSome := by
        rcases hb : (matchDirectiveAt true text.data).isSome with _ | _
        · rcases hb2 : (blockDirectiveScan true text.data).isSome with _ | _
          · rfl
          · rcases hiff.mp hb2 with h1 | h2
            · rw [hb] at h1
              exact absurd h1.2 (by simp)
            · exact absurd h2 hnosplit
        · rcases hb2 : (blockDirectiveScan true text.data).isSome with _ | _
          · have := hiff.mpr (Or.inl ⟨rfl, hb⟩)
            rw [hb2] at this
            exact absurd this (by simp)
          · rfl
      show (blockDirectiveScan true text.data).isSome = _
      rw [hs, hAt]
  · have hiff := blockDirectiveScan_isSome_iff true text.data
    simpa [matchDirective] using hiff
  · intro isBlock tag e hm
    rcases isBlock with _ | _
    · unfold matchDirective at hm
      rw [if_neg (by simp)] at hm
      exact matchDirectiveAt_chars false text.data tag e hm
    · unfold matchDirective at hm
      rw [if_pos rfl] at hm
      exact blockDirectiveScan_chars true text.data tag e hm

/-- Witness for `matchDirective_characterization`: a terminator-free line
comment agrees with the first-line test, and a block comment with its
directive on the second line is recognized. -/
theorem matchDirective_characterization_witness :
    (matchDirective false " #if A").isSome = firstLineBeginsWithTag false " #if A" ∧
    (matchDirective true "*x\n * #endif y\n").isSome = true :=
  ⟨((matchDirective_characterization " #if A").1 (by decide)).1,
   (matchDirective_characterization "*x\n * #endif y\n").2.1.mpr
     (Or.inr ⟨['*', 'x'], '\n', " * #endif y\n".data, by decide, by decide, by decide⟩)⟩


/-- `replayCtx` on an empty trace. -/
theorem replayCtx_nil (sem : E → Ctx → (Except V Bool) × Ctx) (c : Ctx) :
    replayCtx sem [] c = c := rfl

/-- `replayCtx` step. -/
theorem replayCtx_cons (sem : E → Ctx → (Except V Bool) × Ctx) (e : E)
    (tr : List E) (c : Ctx) :
    replayCtx sem (e :: tr) c = replayCtx sem tr (sem e c).2 := rfl

/-- `replayCtx` splits over appends. -/
theorem replayCtx_append (sem : E → Ctx → (Except V Bool) × Ctx)
    (t1 t2 : List E) (c : Ctx) :
    replayCtx sem (t1 ++ t2) c = replayCtx sem t2 (replayCtx sem t1 c) := by
  unfold replayCtx
  exact List.foldl_append _ _ t1 t2

/-- Coherence of an instrumented trace: every recorded guard evaluation
received exactly the context obtained by replaying all earlier recorded
evaluations from `c` — i.e. each guard sees precisely the mutations made
by the guards evaluated before it in the same run. -/
def TraceCoherent (sem : E → Ctx → (Except V Bool) × Ctx) (c : Ctx)
    (tr : List (E × Ctx)) : Prop :=
  ∀ t1 pr t2, tr = t1 ++ pr :: t2 → pr.2 = replayCtx sem (t1.map Prod.fst) c

theorem traceCoherent_nil (sem : E → Ctx → (Except V Bool) × Ctx) (c : Ctx) :
    TraceCoherent sem c [] := by
  intro t1 pr t2 h
  exact absurd h (by simp)

theorem traceCoherent_cons_iff (sem : E → Ctx → (Except V Bool) × Ctx)
    (c cx : Ctx) (e : E) (tr : List (E × Ctx)) :
    TraceCoherent sem c ((e, cx) :: tr) ↔
      (cx = c ∧ TraceCoherent sem (sem e c).2 tr) := by
  constructor
  · intro h
    have hhead := h [] (e, cx) tr rfl
    refine ⟨by simpa [replayCtx] using hhead, ?_⟩
    intro t1 pr t2 heq
    have := h ((e, cx) :: t1) pr t2 (by rw [heq, List.cons_append])
    rw [this]
    simp [replayCtx_cons]
  · rintro ⟨rfl, h⟩
    intro t1 pr t2 heq
    rcases t1 with _ | ⟨q, t1'⟩
    · simp only [List.nil_append] at heq
      obtain ⟨h1, _⟩ := List.cons.inj heq
      rw [← h1]
      simp [replayCtx]
    · rw [List.cons_append] at heq
      obtain ⟨h1, htr⟩ := List.cons.inj heq
      have := h t1' pr t2 htr
      rw [this, ← h1]
      simp [replayCtx_cons]

theorem traceCoherent_single (sem : E → Ctx → (Except V Bool) × Ctx)
    (c : Ctx) (e : E) :
    TraceCoherent sem c [(e, c)] :=
  (traceCoherent_cons_iff sem c c e []).mpr ⟨rfl, traceCoherent_nil sem _⟩

theorem traceCoherent_append (sem : E → Ctx → (Except V Bool) × Ctx)
    (tra trb : List (E × Ctx)) (c : Ctx) (ha : TraceCoherent sem c tra)
    (hb : TraceCoherent sem (replayCtx sem (tra.map Prod.fst) c) trb) :
    TraceCoherent sem c (tra ++ trb) := by
  induction tra generalizing c with
  | nil => simpa [replayCtx] using hb
  | cons q tra' ih =>
    rcases q with ⟨e, cx⟩
    rw [traceCoherent_cons_iff] at ha
    obtain ⟨rfl, ha'⟩ := ha
    rw [List.cons_append, traceCoherent_cons_iff]
    refine ⟨rfl, ih _ ha' ?_⟩
    rw [List.map_cons, replayCtx_cons] at hb
    exact hb

mutual

/-- The run of one compiled block: the guards it evaluates form a sublist
of the block's guards in document order, every evaluated guard sees
exactly the mutations of the previously evaluated guards, and the final
context is the replay of the evaluated guards from the entry context. -/
theorem runIf_trace_spec (sem : E → Ctx → (Except V Bool) × Ctx) (b : IfBlock E) (c : Ctx) :
    (((runIf sem b c).2.2.map Prod.fst).Sublist (allGuardsOne b)) ∧
    TraceCoherent sem c (runIf sem b c).2.2 ∧
    (runIf sem b c).2.1 = replayCtx sem ((runIf sem b c).2.2.map Prod.fst) c := by
  rcases b with ⟨expr, s, p, ln, col, tb, cs, eis, eb, en, d⟩
  unfold runIf allGuardsOne
  rcases hsem : sem expr c with ⟨r, c1⟩
  have hc1 : (sem expr c).2 = c1 := by rw [hsem]
  rcases r with v | bv
  · dsimp only
    refine ⟨List.cons_sublist_cons.mpr (List.nil_sublist _),
      traceCoherent_single sem c expr, ?_⟩
    simp [replayCtx, hc1]
  · rcases bv with _ | _
    · -- guard falsy: elseif cascade, then the final return
      rcases eis with _ | l
      · dsimp only
        have IH := runIfFinal_trace_spec sem eb c1
        rcases hfin : runIfFinal sem eb c1 with ⟨r2, c2, tr2⟩
        rw [hfin] at IH
        obtain ⟨F1, F2, F3⟩ := IH
        dsimp only at F1 F2 F3 ⊢
        refine ⟨?_, ?_, ?_⟩
        · exact List.cons_sublist_cons.mpr
            ((F1.trans (List.sublist_append_right (elseIfOptGuards none) _)).trans
              (List.sublist_append_right (childGuards cs) _))
        · rw [traceCoherent_cons_iff, hc1]
          exact ⟨rfl, F2⟩
        · rw [List.map_cons, replayCtx_cons, hc1, ← F3]
      · dsimp only
        have IHl := runElseIfs_trace_spec sem l 1 c1
        rcases hcas : runElseIfs sem l 1 c1 with ⟨ores, c2, tr⟩
        rw [hcas] at IHl
        obtain ⟨L1, L2, L3⟩ := IHl
        dsimp only at L1 L2 L3 ⊢
        rcases ores with _ | rres
        · -- cascade fell through: the final return runs from c2
          dsimp only
          have IHf := runIfFinal_trace_spec sem eb c2
          rcases hfin : runIfFinal sem eb c2 with ⟨r2, c3, tr2⟩
          rw [hfin] at IHf
          obtain ⟨F1, F2, F3⟩ := IHf
          dsimp only at F1 F2 F3 ⊢
          refine ⟨?_, ?_, ?_⟩
          · rw [List.map_cons, List.map_append]
            exact List.cons_sublist_cons.mpr
              (((L1.append F1).trans (List.Sublist.refl _)).trans
                (List.sublist_append_right (childGuards cs) _))
          · rw [traceCoherent_cons_iff, hc1]
            refine ⟨rfl, traceCoherent_append sem tr tr2 c1 L2 ?_⟩
            rw [← L3]
            exact F2
          · rw [List.map_cons, replayCtx_cons, hc1, List.map_append,
              replayCtx_append, ← L3, ← F3]
        · -- an elseif guard hit or threw
          dsimp only
          refine ⟨?_, ?_, ?_⟩
          · rw [List.map_cons]
            exact List.cons_sublist_cons.mpr
              ((L1.trans (List.sublist_append_left _ (elseGuards eb))).trans
                (List.sublist_append_right (childGuards cs) _))
          · rw [traceCoherent_cons_iff, hc1]
            exact ⟨rfl, L2⟩
          · rw [List.map_cons, replayCtx_cons, hc1, ← L3]
    · -- guard truthy: the if branch
      rcases cs with _ | l
      · dsimp only
        refine ⟨List.cons_sublist_cons.mpr (List.nil_sublist _),
          traceCoherent_single sem c expr, ?_⟩
        simp [replayCtx, hc1]
      · dsimp only
        have IH := runIfList_trace_spec sem l c1
        rcases hrun : runIfList sem l c1 with ⟨rr, c2, tr⟩
        rw [hrun] at IH
        obtain ⟨I1, I2, I3⟩ := IH
        dsimp only at I1 I2 I3 ⊢
        rcases rr with t | es
        · dsimp only
          refine ⟨?_, ?_, ?_⟩
          · rw [List.map_cons]
            exact List.cons_sublist_cons.mpr
              (I1.trans (List.sublist_append_left _ _))
          · rw [traceCoherent_cons_iff, hc1]
            exact ⟨rfl, I2⟩
          · rw [List.map_cons, replayCtx_cons, hc1, ← I3]
        · dsimp only
          refine ⟨?_, ?_, ?_⟩
          · rw [List.map_cons]
            exact List.cons_sublist_cons.mpr
              (I1.trans (List.sublist_append_left _ _))
          · rw [traceCoherent_cons_iff, hc1]
            exact ⟨rfl, I2⟩
          · rw [List.map_cons, replayCtx_cons, hc1, ← I3]

/-- `runIf_trace_spec` for the `elseif` cascade. -/
theorem runElseIfs_trace_spec (sem : E → Ctx → (Except V Bool) × Ctx)
    (eis : List (ElseIfBlock E)) (idx : Int) (c : Ctx) :
    (((runElseIfs sem eis idx c).2.2.map Prod.fst).Sublist (allGuardsElseIfs eis)) ∧
    TraceCoherent sem c (runElseIfs sem eis idx c).2.2 ∧
    (runElseIfs sem eis idx c).2.1 =
      replayCtx sem ((runElseIfs sem eis idx c).2.2.map Prod.fst) c := by
  rcases eis with _ | ⟨⟨expr, s, p, ln, col, cs⟩, rest⟩
  · unfold runElseIfs
    exact ⟨List.nil_sublist _, traceCoherent_nil sem c, rfl⟩
  · unfold runElseIfs allGuardsElseIfs
    rcases hsem : sem expr c with ⟨r, c1⟩
    have hc1 : (sem expr c).2 = c1 := by rw [hsem]
    rcases r with v | bv
    · dsimp only
      refine ⟨?_, traceCoherent_single sem c expr, ?_⟩
      · rw [List.cons_append]
        exact List.cons_sublist_cons.mpr (List.nil_sublist _)
      · simp [replayCtx, hc1]
    · rcases bv with _ | _
      · -- falsy: continue the cascade
        dsimp only
        have IH := runElseIfs_trace_spec sem rest (idx + 1) c1
        rcases hcas : runElseIfs sem rest (idx + 1) c1 with ⟨ores, c2, tr⟩
        rw [hcas] at IH
        obtain ⟨L1, L2, L3⟩ := IH
        dsimp only at L1 L2 L3 ⊢
        refine ⟨?_, ?_, ?_⟩
        · rw [List.map_cons, List.cons_append]
          exact List.cons_sublist_cons.mpr
            (L1.trans (List.sublist_append_right (childGuards cs) _))
        · rw [traceCoherent_cons_iff, hc1]
          exact ⟨rfl, L2⟩
        · rw [List.map_cons, replayCtx_cons, hc1, ← L3]
      · -- truthy: this elseif is taken
        rcases cs with _ | l
        · dsimp only
          refine ⟨?_, traceCoherent_single sem c expr, ?_⟩
          · rw [List.cons_append]
            exact List.cons_sublist_cons.mpr (List.nil_sublist _)
          · simp [replayCtx, hc1]
        · dsimp only
          have IH := runIfList_trace_spec sem l c1
          rcases hrun : runIfList sem l c1 with ⟨rr, c2, tr⟩
          rw [hrun] at IH
          obtain ⟨I1, I2, I3⟩ := IH
          dsimp only at I1 I2 I3 ⊢
          rcases rr with t | es
          · dsimp only
            refine ⟨?_, ?_, ?_⟩
            · rw [List.map_cons, List.cons_append]
              exact (List.cons_sublist_cons.mpr I1).trans
                (List.sublist_append_left _ _)
            · rw [traceCoherent_cons_iff, hc1]
              exact ⟨rfl, I2⟩
            · rw [List.map_cons, replayCtx_cons, hc1, ← I3]
          · dsimp only
            refine ⟨?_, ?_, ?_⟩
            · rw [List.map_cons, List.cons_append]
              exact (List.cons_sublist_cons.mpr I1).trans
                (List.sublist_append_left _ _)
            · rw [traceCoherent_cons_iff, hc1]
              exact ⟨rfl, I2⟩
            · rw [List.map_cons, replayCtx_cons, hc1, ← I3]

/-- `runIf_trace_spec` for the final `return` (the `else` children). -/
theorem runIfFinal_trace_spec (sem : E → Ctx → (Except V Bool) × Ctx)
    (eb : Option (ElseBlock E)) (c : Ctx) :
    (((runIfFinal sem eb c).2.2.map Prod.fst).Sublist (elseGuards eb)) ∧
    TraceCoherent sem c (runIfFinal sem eb c).2.2 ∧
    (runIfFinal sem eb c).2.1 =
      replayCtx sem ((runIfFinal sem eb c).2.2.map Prod.fst) c := by
  rcases eb with _ | ⟨s, p, ln, col, ebCs⟩
  · unfold runIfFinal
    exact ⟨List.nil_sublist _, traceCoherent_nil sem c, rfl⟩
  · unfold runIfFinal elseGuards
    rcases ebCs with _ | l
    · exact ⟨List.nil_sublist _, traceCoherent_nil sem c, rfl⟩
    · dsimp only [childGuards]
      have IH := runIfList_trace_spec sem l c
      rcases hrun : runIfList sem l c with ⟨rr, c2, tr⟩
      rw [hrun] at IH
      obtain ⟨I1, I2, I3⟩ := IH
      dsimp only at I1 I2 I3 ⊢
      rcases rr with t | es
      · exact ⟨I1, I2, I3⟩
      · exact ⟨I1, I2, I3⟩

/-- `runIf_trace_spec` for a block list. -/
theorem runIfList_trace_spec (sem : E → Ctx → (Except V Bool) × Ctx)
    (bs : List (IfBlock E)) (c : Ctx) :
    (((runIfList sem bs c).2.2.map Prod.fst).Sublist (allGuardsList bs)) ∧
    TraceCoherent sem c (runIfList sem bs c).2.2 ∧
    (runIfList sem bs c).2.1 =
      replayCtx sem ((runIfList sem bs c).2.2.map Prod.fst) c := by
  rcases bs with _ | ⟨b, rest⟩
  · unfold runIfList
    exact ⟨List.nil_sublist _, traceCoherent_nil sem c, rfl⟩
  · unfold runIfList allGuardsList
    have IHb := runIf_trace_spec sem b c
    rcases hb : runIf sem b c with ⟨rb, c1, trb⟩
    rw [hb] at IHb
    obtain ⟨B1, B2, B3⟩ := IHb
    dsimp only at B1 B2 B3 ⊢
    rcases rb with t | e
    · exact ⟨B1.trans (List.sublist_append_left _ _), B2, B3⟩
    · dsimp only
      have IHr := runIfList_trace_spec sem rest c1
      rcases hr : runIfList sem rest c1 with ⟨rr, c2, trr⟩
      rw [hr] at IHr
      obtain ⟨R1, R2, R3⟩ := IHr
      dsimp only at R1 R2 R3 ⊢
      rcases rr with t2 | es
      · dsimp only
        refine ⟨?_, ?_, ?_⟩
        · rw [List.map_append]
          exact B1.append R1
        · refine traceCoherent_append sem trb trr c B2 ?_
          rw [← B3]
          exact R2
        · rw [List.map_append, replayCtx_append, ← B3, ← R3]
      · dsimp only
        refine ⟨?_, ?_, ?_⟩
        · rw [List.map_append]
          exact B1.append R1
        · refine traceCoherent_append sem trb trr c B2 ?_
          rw [← B3]
          exact R2
        · rw [List.map_append, replayCtx_append, ← B3, ← R3]

end

/-- A guard semantics for exercising the batch run: every guard is
truthy and adds its (integer) expression to the (integer) context. -/
def c2Sem : Int → Int → (Except Unit Bool) × Int :=
  fun e c => (Except.ok true, c + e)

/-- A childless top-level block whose guard expression is `g`. -/
def c2Block (g : Int) : IfBlock Int :=
  .mk g 0 0 0 0 none none none none Endif.unset false

/-- C2: within one batch evaluation run, the guard expressions the
generated program evaluates form a sublist of the tree's full guard list
in source-document order (siblings, `elseif` chains, and nested guards
alike); every evaluated guard receives exactly the context obtained by
replaying the mutations of all previously evaluated guards from the
entry context — so a mutation performed by an earlier guard is visible
to every later guard of the same run, including guards of blocks not
nested inside the mutating one; and the run's final context is the
replay of all evaluated guards. -/
theorem runIfList_source_order_and_mutation_visibility
    (sem : E → Ctx → (Except V Bool) × Ctx) (bs : List (IfBlock E)) (c : Ctx) :
    (((runIfList sem bs c).2.2.map Prod.fst).Sublist (allGuardsList bs)) ∧
    (∀ t1 pr t2, (runIfList sem bs c).2.2 = t1 ++ pr :: t2 →
      pr.2 = replayCtx sem (t1.map Prod.fst) c) ∧
    (runIfList sem bs c).2.1 =
      replayCtx sem ((runIfList sem bs c).2.2.map Prod.fst) c := by
  obtain ⟨h1, h2, h3⟩ := runIfList_trace_spec sem bs c
  exact ⟨h1, h2, h3⟩

/-- Witness for C2 on a concrete run: two sibling blocks with guards 5
and 7 starting from context 0; the trace decomposes so that the second
guard's recorded context is the replay of the first guard alone (the
first guard's mutation, 0 + 5, is what the second guard saw). -/
theorem runIfList_source_order_and_mutation_visibility_witness :
    (((runIfList c2Sem [c2Block 5, c2Block 7] 0).2.2.map Prod.fst).Sublist
      (allGuardsList [c2Block 5, c2Block 7])) ∧
    (((7 : Int), (5 : Int)).2 = replayCtx c2Sem ([((5 : Int), (0 : Int))].map Prod.fst) 0) ∧
    (runIfList c2Sem [c2Block 5, c2Block 7] 0).2.1 =
      replayCtx c2Sem ((runIfList c2Sem [c2Block 5, c2Block 7] 0).2.2.map Prod.fst) 0 := by
  obtain ⟨h1, h2, h3⟩ :=
    runIfList_source_order_and_mutation_visibility c2Sem [c2Block 5, c2Block 7] 0
  exact ⟨h1, h2 [(5, 0)] (7, 5) [] (by rfl), h3⟩


/-- The guards sitting inside the children of each `elseif` of a cascade
(the `elseif`s' own guards excluded). -/
def elseIfChildGuardsL : List (ElseIfBlock E) → List E
  | [] => []
  | ⟨_, _, _, _, _, cs⟩ :: rest => childGuards cs ++ elseIfChildGuardsL rest

/-- `elseIfChildGuardsL` on an optional cascade. -/
def elseIfChildGuards : Option (List (ElseIfBlock E)) → List E
  | some l => elseIfChildGuardsL l
  | none => []

/-- The `elseif`s' own guards of a cascade, in order. -/
def elseIfOwnGuardsL : List (ElseIfBlock E) → List E
  | [] => []
  | ⟨expr, _, _, _, _, _⟩ :: rest => expr :: elseIfOwnGuardsL rest

mutual

/-- Spec-level classification (from the claim's wording, not from the
source): the guard expressions of blocks nested inside a branch of the
block that the run's result entry marks as not taken.  Branch `0` is the
`if` branch, `k ≥ 1` the `k`-th `elseif` branch, and `-1` the `else`
part; inside the branch that was taken the classification recurses using
the entry's children. -/
def untakenOne : IfBlock E → REntry → List E
  | .mk _ _ _ _ _ _ cs eis eb _ _, .mk br che =>
    if br = 0 then
      elseIfChildGuards eis ++ (elseGuards eb ++ untakenChildren cs che)
    else if br = -1 then
      childGuards cs ++ (elseIfChildGuards eis ++ untakenElse eb che)
    else
      childGuards cs ++ (untakenElseIfsOpt eis 1 br che ++ elseGuards eb)

/-- `untakenOne` under an optional child list, paired with the optional
result entries of the taken branch. -/
def untakenChildren : Option (List (IfBlock E)) → Option (List REntry) → List E
  | some l, some es => untakenList l es
  | some l, none => allGuardsList l
  | none, _ => []

/-- `untakenChildren` for the `else` part. -/
def untakenElse : Option (ElseBlock E) → Option (List REntry) → List E
  | some ⟨_, _, _, _, cs⟩, che => untakenChildren cs che
  | none, _ => []

/-- `untakenOne` over an optional `elseif` cascade. -/
def untakenElseIfsOpt :
    Option (List (ElseIfBlock E)) → Int → Int → Option (List REntry) → List E
  | some l, idx, br, che => untakenElseIfsL l idx br che
  | none, _, _, _ => []

/-- Walk an `elseif` cascade whose branch `br` was taken, `idx` being the
index of the first element: all children guards of the non-taken
`elseif`s, and the recursive classification inside the taken one. -/
def untakenElseIfsL :
    List (ElseIfBlock E) → Int → Int → Option (List REntry) → List E
  | [], _, _, _ => []
  | ⟨_, _, _, _, _, cs⟩ :: rest, idx, br, che =>
    (if idx = br then untakenChildren cs che else childGuards cs) ++
      untakenElseIfsL rest (idx + 1) br che

/-- `untakenOne` over a block list paired with its result entries. -/
def untakenList : List (IfBlock E) → List REntry → List E
  | [], _ => []
  | _ :: _, [] => []
  | b :: bs, e :: es => untakenOne b e ++ untakenList bs es

end

/-- Monotonicity of list disjointness under subsets. -/
theorem listDisjoint_mono {α : Type} {s1 s2 X Y : List α}
    (h1 : s1 ⊆ X) (h2 : s2 ⊆ Y) (h : X.Disjoint Y) : s1.Disjoint s2 :=
  fun _ ha hb => h (h1 ha) (h2 hb)

/-- The `elseif` children guards are among the cascade's guards. -/
theorem elseIfChildGuardsL_subset (l : List (ElseIfBlock E)) :
    elseIfChildGuardsL l ⊆ allGuardsElseIfs l := by
  induction l with
  | nil => exact List.Subset.refl _
  | cons hd rest ih =>
    rcases hd with ⟨expr, s, p, ln, col, cs⟩
    unfold elseIfChildGuardsL allGuardsElseIfs
    refine List.append_subset.mpr ⟨?_, ih.trans (List.subset_append_right _ _)⟩
    exact ((List.subset_cons_self expr _).trans (List.subset_append_left _ _))

/-- `elseIfChildGuardsL_subset` for an optional cascade. -/
theorem elseIfChildGuards_subset (eis : Option (List (ElseIfBlock E))) :
    elseIfChildGuards eis ⊆ elseIfOptGuards eis := by
  rcases eis with _ | l
  · exact List.Subset.refl _
  · exact elseIfChildGuardsL_subset l

mutual

/-- The untaken-branch guards of a block are among its guards. -/
theorem untakenOne_subset (b : IfBlock E) (e : REntry) :
    untakenOne b e ⊆ allGuardsOne b := by
  rcases b with ⟨expr, s, p, ln, col, tb, cs, eis, eb, en, d⟩
  rcases e with ⟨br, che⟩
  unfold untakenOne allGuardsOne
  split
  · refine List.subset_cons_of_subset expr (List.append_subset.mpr ⟨?_, List.append_subset.mpr ⟨?_, ?_⟩⟩)
    · exact (elseIfChildGuards_subset eis).trans
        ((List.subset_append_left _ _).trans (List.subset_append_right _ _))
    · exact (List.subset_append_right (elseIfOptGuards eis) _).trans
        (List.subset_append_right (childGuards cs) _)
    · exact (untakenChildren_subset cs che).trans (List.subset_append_left _ _)
  · split
    · refine List.subset_cons_of_subset expr (List.append_subset.mpr ⟨?_, List.append_subset.mpr ⟨?_, ?_⟩⟩)
      · exact List.subset_append_left _ _
      · exact (elseIfChildGuards_subset eis).trans
          ((List.subset_append_left _ _).trans (List.subset_append_right _ _))
      · exact ((untakenElse_subset eb che).trans
          (List.subset_append_right (elseIfOptGuards eis) _)).trans
          (List.subset_append_right (childGuards cs) _)
    · refine List.subset_cons_of_subset expr (List.append_subset.mpr ⟨?_, List.append_subset.mpr ⟨?_, ?_⟩⟩)
      · exact List.subset_append_left _ _
      · exact ((untakenElseIfsOpt_subset eis 1 br che).trans
          (List.subset_append_left _ _)).trans
          (List.subset_append_right (childGuards cs) _)
      · exact (List.subset_append_right (elseIfOptGuards eis) _).trans
          (List.subset_append_right (childGuards cs) _)

/-- `untakenOne_subset` for optional children. -/
theorem untakenChildren_subset (cs : Option (List (IfBlock E))) (che : Option (List REntry)) :
    untakenChildren cs che ⊆ childGuards cs := by
  rcases cs with _ | l
  · exact fun a ha => absurd ha (List.not_mem_nil a)
  · rcases che with _ | es
    · exact List.Subset.refl _
    · exact untakenList_subset l es

/-- `untakenOne_subset` for the `else` part. -/
theorem untakenElse_subset (eb : Option (ElseBlock E)) (che : Option (List REntry)) :
    untakenElse eb che ⊆ elseGuards eb := by
  rcases eb with _ | ⟨s, p, ln, col, cs⟩
  · exact fun a ha => absurd ha (List.not_mem_nil a)
  · exact untakenChildren_subset cs che

/-- `untakenOne_subset` for an optional cascade. -/
theorem untakenElseIfsOpt_subset (eis : Option (List (ElseIfBlock E)))
    (idx br : Int) (che : Option (List REntry)) :
    untakenElseIfsOpt eis idx br che ⊆ elseIfOptGuards eis := by
  rcases eis with _ | l
  · exact fun a ha => absurd ha (List.not_mem_nil a)
  · exact untakenElseIfsL_subset l idx br che

/-- `untakenOne_subset` for a cascade. -/
theorem untakenElseIfsL_subset (l : List (ElseIfBlock E))
    (idx br : Int) (che : Option (List REntry)) :
    untakenElseIfsL l idx br che ⊆ allGuardsElseIfs l := by
  rcases l with _ | ⟨⟨expr, s, p, ln, col, cs⟩, rest⟩
  · exact List.Subset.refl _
  · unfold untakenElseIfsL allGuardsElseIfs
    refine List.append_subset.mpr ⟨?_,
      (untakenElseIfsL_subset rest (idx + 1) br che).trans (List.subset_append_right _ _)⟩
    have hc : childGuards cs ⊆ (expr :: childGuards cs) ++ allGuardsElseIfs rest :=
      (List.subset_cons_self expr _).trans (List.subset_append_left _ _)
    split
    · exact (untakenChildren_subset cs che).trans hc
    · exact hc

/-- `untakenOne_subset` for a block list. -/
theorem untakenList_subset (bs : List (IfBlock E)) (es : List REntry) :
    untakenList bs es ⊆ allGuardsList bs := by
  rcases bs with _ | ⟨b, rest⟩
  · exact List.Subset.refl _
  · rcases es with _ | ⟨e, es'⟩
    · exact fun a ha => absurd ha (List.not_mem_nil a)
    · unfold untakenList allGuardsList
      exact List.append_subset.mpr
        ⟨(untakenOne_subset b e).trans (List.subset_append_left _ _),
         (untakenList_subset rest es').trans (List.subset_append_right _ _)⟩

end

/-- The cascade's own guards, in order, are among its guards. -/
theorem elseIfOwnGuardsL_subset (l : List (ElseIfBlock E)) :
    elseIfOwnGuardsL l ⊆ allGuardsElseIfs l := by
  induction l with
  | nil => exact List.Subset.refl _
  | cons hd rest ih =>
    rcases hd with ⟨expr, s, p, ln, col, cs⟩
    unfold elseIfOwnGuardsL allGuardsElseIfs
    intro a ha
    rcases List.mem_cons.mp ha with rfl | ha'
    · exact List.mem_append_left _ (List.mem_cons_self _ _)
    · exact List.mem_append_right _ (ih ha')

/-- Distinct guards separate a cascade's own guards from the guards
inside its children. -/
theorem elseIfOwn_disjoint_children (l : List (ElseIfBlock E))
    (hnd : (allGuardsElseIfs l).Nodup) :
    (elseIfOwnGuardsL l).Disjoint (elseIfChildGuardsL l) := by
  induction l with
  | nil => exact fun a ha => absurd ha (List.not_mem_nil a)
  | cons hd rest ih =>
    rcases hd with ⟨expr, s, p, ln, col, cs⟩
    unfold allGuardsElseIfs at hnd
    rw [List.nodup_append] at hnd
    obtain ⟨h1, h2, h3⟩ := hnd
    rw [List.nodup_cons] at h1
    obtain ⟨hx, hcn⟩ := h1
    unfold elseIfOwnGuardsL elseIfChildGuardsL
    rw [List.disjoint_cons_left]
    refine ⟨?_, ?_⟩
    · rw [List.mem_append]
      rintro (hc | hc)
      · exact hx hc
      · exact h3 (List.mem_cons_self _ _) (elseIfChildGuardsL_subset rest hc)
    · rw [List.disjoint_append_right]
      exact ⟨listDisjoint_mono (elseIfOwnGuardsL_subset rest)
          (List.subset_cons_self expr _) h3.symm,
        ih h2⟩

/-- When the cascade falls through (every `elseif` guard falsy), the
trace is exactly the cascade's own guards, in order. -/
theorem runElseIfs_none_trace (sem : E → Ctx → (Except V Bool) × Ctx)
    (l : List (ElseIfBlock E)) (idx : Int) (c c2 : Ctx) (tr : List (E × Ctx))
    (heq : runElseIfs sem l idx c = (none, c2, tr)) :
    tr.map Prod.fst = elseIfOwnGuardsL l := by
  induction l generalizing idx c c2 tr with
  | nil =>
    unfold runElseIfs at heq
    simp only [Prod.mk.injEq] at heq
    rw [← heq.2.2]
    rfl
  | cons hd rest ih =>
    rcases hd with ⟨expr, s, p, ln, col, cs⟩
    unfold runElseIfs at heq
    rcases hsem : sem expr c with ⟨r, c1⟩
    rw [hsem] at heq
    rcases r with v | bv
    · simp at heq
    · rcases bv with _ | _
      · dsimp only at heq
        rcases hcas : runElseIfs sem rest (idx + 1) c1 with ⟨ores, c2', trr⟩
        rw [hcas] at heq
        dsimp only at heq
        simp only [Prod.mk.injEq] at heq
        obtain ⟨ho, hc2, htr⟩ := heq
        subst ho
        rw [← htr, List.map_cons]
        unfold elseIfOwnGuardsL
        rw [ih (idx + 1) c1 c2' trr hcas]
      · dsimp only at heq
        rcases cs with _ | lc
        · simp at heq
        · dsimp only at heq
          rcases hrun : runIfList sem lc c1 with ⟨rr, c2', trl⟩
          rw [hrun] at heq
          rcases rr with t | esl
          · simp at heq
          · simp at heq

mutual

/-- A successful run of one block never evaluates a guard classified as
sitting inside a non-taken branch (guard lists assumed duplicate-free). -/
theorem runIf_untaken (sem : E → Ctx → (Except V Bool) × Ctx) (b : IfBlock E) (c : Ctx)
    (entry : REntry) (c' : Ctx) (tr : List (E × Ctx))
    (heq : runIf sem b c = (.ok entry, c', tr))
    (hnd : (allGuardsOne b).Nodup) :
    (tr.map Prod.fst).Disjoint (untakenOne b entry) := by
  rcases b with ⟨expr, s, p, ln, col, tb, cs, eis, eb, en, d⟩
  unfold runIf at heq
  unfold allGuardsOne at hnd
  rw [List.nodup_cons] at hnd
  obtain ⟨hx, hnd2⟩ := hnd
  rw [List.nodup_append] at hnd2
  obtain ⟨hndC, hnd3, hdC⟩ := hnd2
  rw [List.nodup_append] at hnd3
  obtain ⟨hndEI, hndEL, hdEI⟩ := hnd3
  rw [List.mem_append, List.mem_append] at hx
  push_neg at hx
  obtain ⟨hxC, hxE, hxL⟩ := hx
  have hdCE : (childGuards cs).Disjoint (elseIfOptGuards eis) :=
    fun a ha hb => hdC ha (List.mem_append_left _ hb)
  have hdCL : (childGuards cs).Disjoint (elseGuards eb) :=
    fun a ha hb => hdC ha (List.mem_append_right _ hb)
  rcases hsem : sem expr c with ⟨r, c1⟩
  rw [hsem] at heq
  rcases r with v | bv
  · simp at heq
  · rcases bv with _ | _
    · -- guard falsy
      dsimp only at heq
      rcases eis with _ | l
      · -- no elseifs: straight to the final return
        dsimp only at heq
        rcases hfin : runIfFinal sem eb c1 with ⟨rf, c2, tr2⟩
        rw [hfin] at heq
        dsimp only at heq
        simp only [Prod.mk.injEq] at heq
        obtain ⟨hent, hc', htr⟩ := heq
        subst hent
        obtain ⟨hbr, hdF⟩ := runIfFinal_untaken sem eb c1 entry c2 tr2 hfin hndEL
        have hts := (runIfFinal_trace_spec sem eb c1).1
        rw [hfin] at hts
        dsimp only at hts
        rcases entry with ⟨br, che⟩
        simp only [REntry.branch] at hbr
        subst hbr
        simp only [REntry.childrenR] at hdF
        rw [← htr, List.map_cons]
        unfold untakenOne
        rw [if_neg (by decide), if_pos rfl]
        rw [List.disjoint_cons_left]
        constructor
        · intro hmem
          rw [List.mem_append, List.mem_append] at hmem
          rcases hmem with h | h | h
          · exact hxC h
          · exact absurd h (by simp [elseIfChildGuards])
          · exact hxL (untakenElse_subset eb che h)
        · rw [List.disjoint_append_right, List.disjoint_append_right]
          refine ⟨?_, ?_, ?_⟩
          · exact listDisjoint_mono hts.subset (List.Subset.refl _) hdCL.symm
          · exact fun a _ hb => absurd hb (by simp [elseIfChildGuards])
          · exact hdF
      · -- elseif cascade present
        dsimp only at heq
        rcases hcas : runElseIfs sem l 1 c1 with ⟨ores, c2, trc⟩
        rw [hcas] at heq
        rcases ores with _ | rr
        · -- cascade fell through, final return from c2
          dsimp only at heq
          rcases hfin : runIfFinal sem eb c2 with ⟨rf, c3, tr2⟩
          rw [hfin] at heq
          dsimp only at heq
          simp only [Prod.mk.injEq] at heq
          obtain ⟨hent, hc', htr⟩ := heq
          subst hent
          obtain ⟨hbr, hdF⟩ := runIfFinal_untaken sem eb c2 entry c3 tr2 hfin hndEL
          have hts2 := (runIfFinal_trace_spec sem eb c2).1
          rw [hfin] at hts2
          dsimp only at hts2
          have howntr := runElseIfs_none_trace sem l 1 c1 c2 trc hcas
          rcases entry with ⟨br, che⟩
          simp only [REntry.branch] at hbr
          subst hbr
          simp only [REntry.childrenR] at hdF
          rw [← htr, List.map_cons, List.map_append]
          unfold untakenOne
          rw [if_neg (by decide), if_pos rfl]
          rw [List.disjoint_cons_left]
          constructor
          · intro hmem
            rw [List.mem_append, List.mem_append] at hmem
            rcases hmem with h | h | h
            · exact hxC h
            · exact hxE (elseIfChildGuardsL_subset l h)
            · exact hxL (untakenElse_subset eb che h)
          · rw [List.disjoint_append_left]
            constructor
            · rw [howntr]
              rw [List.disjoint_append_right, List.disjoint_append_right]
              refine ⟨?_, ?_, ?_⟩
              · exact listDisjoint_mono (elseIfOwnGuardsL_subset l)
                  (List.Subset.refl _) hdCE.symm
              · exact elseIfOwn_disjoint_children l hndEI
              · exact listDisjoint_mono (elseIfOwnGuardsL_subset l)
                  (untakenElse_subset eb che) hdEI
            · rw [List.disjoint_append_right, List.disjoint_append_right]
              refine ⟨?_, ?_, ?_⟩
              · exact listDisjoint_mono hts2.subset (List.Subset.refl _) hdCL.symm
              · exact listDisjoint_mono hts2.subset (elseIfChildGuardsL_subset l)
                  hdEI.symm
              · exact hdF
        · -- an elseif was taken (or threw)
          dsimp only at heq
          simp only [Prod.mk.injEq] at heq
          obtain ⟨hent, hc', htr⟩ := heq
          subst hent
          obtain ⟨hge, hdE⟩ := runElseIfs_untaken sem l 1 c1 entry c2 trc hcas hndEI
          have hts := (runElseIfs_trace_spec sem l 1 c1).1
          rw [hcas] at hts
          dsimp only at hts
          rcases entry with ⟨br, che⟩
          simp only [REntry.branch] at hge
          simp only [REntry.branch, REntry.childrenR] at hdE
          rw [← htr, List.map_cons]
          unfold untakenOne
          rw [if_neg (by omega), if_neg (by omega)]
          rw [List.disjoint_cons_left]
          constructor
          · intro hmem
            rw [List.mem_append, List.mem_append] at hmem
            rcases hmem with h | h | h
            · exact hxC h
            · exact hxE (untakenElseIfsL_subset l 1 br che h)
            · exact hxL h
          · rw [List.disjoint_append_right, List.disjoint_append_right]
            refine ⟨?_, ?_, ?_⟩
            · exact listDisjoint_mono hts.subset (List.Subset.refl _) hdCE.symm
            · exact hdE
            · exact listDisjoint_mono hts.subset (List.Subset.refl _) hdEI
    · -- guard truthy
      dsimp only at heq
      rcases cs with _ | l
      · dsimp only at heq
        simp only [Prod.mk.injEq, Except.ok.injEq] at heq
        obtain ⟨hent, hc', htr⟩ := heq
        subst hent
        rw [← htr, List.map_cons]
        unfold untakenOne
        rw [if_pos rfl]
        rw [List.disjoint_cons_left]
        constructor
        · intro hmem
          rw [List.mem_append] at hmem
          rcases hmem with h | h
          · exact hxE (elseIfChildGuards_subset eis h)
          · rw [List.mem_append] at h
            rcases h with h | h
            · exact hxL h
            · exact absurd h (by simp [untakenChildren])
        · exact fun a ha => absurd ha (List.not_mem_nil a)
      · dsimp only at heq
        rcases hrun : runIfList sem l c1 with ⟨rr, c2, trl⟩
        rw [hrun] at heq
        rcases rr with t | esl
        · simp at heq
        · dsimp only at heq
          simp only [Prod.mk.injEq, Except.ok.injEq] at heq
          obtain ⟨hent, hc', htr⟩ := heq
          subst hent
          have hdl := runIfList_untaken sem l c1 esl c2 trl hrun hndC
          have hts := (runIfList_trace_spec sem l c1).1
          rw [hrun] at hts
          dsimp only at hts
          rw [← htr, List.map_cons]
          unfold untakenOne
          rw [if_pos rfl]
          rw [List.disjoint_cons_left]
          constructor
          · intro hmem
            rw [List.mem_append, List.mem_append] at hmem
            rcases hmem with h | h | h
            · exact hxE (elseIfChildGuards_subset eis h)
            · exact hxL h
            · exact hxC (untakenList_subset l esl h)
          · rw [List.disjoint_append_right, List.disjoint_append_right]
            refine ⟨?_, ?_, ?_⟩
            · exact listDisjoint_mono hts.subset (elseIfChildGuards_subset eis) hdCE
            · exact listDisjoint_mono hts.subset (List.Subset.refl _) hdCL
            · exact hdl

/-- `runIf_untaken` for the `elseif` cascade: a taken `elseif` has index
at least `idx`, and the cascade's trace avoids the untaken guards. -/
theorem runElseIfs_untaken (sem : E → Ctx → (Except V Bool) × Ctx)
    (eis : List (ElseIfBlock E)) (idx : Int) (c : Ctx)
    (entry : REntry) (c' : Ctx) (tr : List (E × Ctx))
    (heq : runElseIfs sem eis idx c = (some (.ok entry), c', tr))
    (hnd : (allGuardsElseIfs eis).Nodup) :
    idx ≤ entry.branch ∧
      (tr.map Prod.fst).Disjoint (untakenElseIfsL eis idx entry.branch entry.childrenR) := by
  rcases eis with _ | ⟨⟨expr, s, p, ln, col, cs⟩, rest⟩
  · unfold runElseIfs at heq
    simp at heq
  · unfold runElseIfs at heq
    unfold allGuardsElseIfs at hnd
    rw [List.nodup_append] at hnd
    obtain ⟨h1, hndR, hdR⟩ := hnd
    rw [List.nodup_cons] at h1
    obtain ⟨hxC, hndC⟩ := h1
    have hxR : expr ∉ allGuardsElseIfs rest := fun hm => hdR (List.mem_cons_self _ _) hm
    have hdCR : (childGuards cs).Disjoint (allGuardsElseIfs rest) :=
      fun a ha hb => hdR (List.mem_cons_of_mem _ ha) hb
    rcases hsem : sem expr c with ⟨r, c1⟩
    rw [hsem] at heq
    rcases r with v | bv
    · simp at heq
    · rcases bv with _ | _
      · -- falsy: cascade continues
        dsimp only at heq
        rcases hcas : runElseIfs sem rest (idx + 1) c1 with ⟨ores, c2, trr⟩
        rw [hcas] at heq
        dsimp only at heq
        simp only [Prod.mk.injEq] at heq
        obtain ⟨ho, hc2, htr⟩ := heq
        subst ho
        obtain ⟨hge, hdE⟩ := runElseIfs_untaken sem rest (idx + 1) c1 entry c2 trr hcas hndR
        have hts := (runElseIfs_trace_spec sem rest (idx + 1) c1).1
        rw [hcas] at hts
        dsimp only at hts
        refine ⟨by omega, ?_⟩
        rw [← htr, List.map_cons]
        unfold untakenElseIfsL
        rw [if_neg (by omega)]
        rw [List.disjoint_cons_left]
        constructor
        · intro hmem
          rw [List.mem_append] at hmem
          rcases hmem with h | h
          · exact hxC h
          · exact hxR (untakenElseIfsL_subset rest (idx + 1) entry.branch entry.childrenR h)
        · rw [List.disjoint_append_right]
          exact ⟨listDisjoint_mono hts.subset (List.Subset.refl _) hdCR.symm, hdE⟩
      · -- truthy: this elseif is taken
        dsimp only at heq
        rcases cs with _ | lc
        · dsimp only at heq
          simp only [Prod.mk.injEq, Option.some.injEq, Except.ok.injEq] at heq
          obtain ⟨hent, hc', htr⟩ := heq
          subst hent
          refine ⟨by simp [REntry.branch], ?_⟩
          rw [← htr, List.map_cons]
          unfold untakenElseIfsL
          simp only [REntry.branch, REntry.childrenR, if_true]
          rw [List.disjoint_cons_left]
          constructor
          · intro hmem
            rw [List.mem_append] at hmem
            rcases hmem with h | h
            · exact absurd h (by simp [untakenChildren])
            · exact hxR (untakenElseIfsL_subset rest (idx + 1) idx none h)
          · exact fun a ha => absurd ha (List.not_mem_nil a)
        · dsimp only at heq
          rcases hrun : runIfList sem lc c1 with ⟨rr, c2, trl⟩
          rw [hrun] at heq
          rcases rr with t | esl
          · simp at heq
          · dsimp only at heq
            simp only [Prod.mk.injEq, Option.some.injEq, Except.ok.injEq] at heq
            obtain ⟨hent, hc', htr⟩ := heq
            subst hent
            have hdl := runIfList_untaken sem lc c1 esl c2 trl hrun hndC
            have hts := (runIfList_trace_spec sem lc c1).1
            rw [hrun] at hts
            dsimp only at hts
            refine ⟨by simp [REntry.branch], ?_⟩
            rw [← htr, List.map_cons]
            unfold untakenElseIfsL
            simp only [REntry.branch, REntry.childrenR, if_true]
            rw [List.disjoint_cons_left]
            constructor
            · intro hmem
              rw [List.mem_append] at hmem
              rcases hmem with h | h
              · exact hxC (untakenList_subset lc esl h)
              · exact hxR (untakenElseIfsL_subset rest (idx + 1) idx (some esl) h)
            · rw [List.disjoint_append_right]
              exact ⟨hdl,
                listDisjoint_mono hts.subset
                  (untakenElseIfsL_subset rest (idx + 1) idx (some esl)) hdCR⟩

/-- `runIf_untaken` for the final `return`: the produced entry is the
`else` entry (branch `-1`) and the trace avoids the untaken guards. -/
theorem runIfFinal_untaken (sem : E → Ctx → (Except V Bool) × Ctx)
    (eb : Option (ElseBlock E)) (c : Ctx)
    (entry : REntry) (c' : Ctx) (tr : List (E × Ctx))
    (heq : runIfFinal sem eb c = (.ok entry, c', tr))
    (hnd : (elseGuards eb).Nodup) :
    entry.branch = -1 ∧
      (tr.map Prod.fst).Disjoint (untakenElse eb entry.childrenR) := by
  rcases eb with _ | ⟨s, p, ln, col, ebCs⟩
  · unfold runIfFinal at heq
    simp only [Prod.mk.injEq, Except.ok.injEq] at heq
    obtain ⟨hent, hc', htr⟩ := heq
    subst hent
    refine ⟨by simp [REntry.branch], ?_⟩
    rw [← htr]
    exact fun a ha => absurd ha (List.not_mem_nil a)
  · unfold runIfFinal at heq
    rcases ebCs with _ | l
    · dsimp only at heq
      simp only [Prod.mk.injEq, Except.ok.injEq] at heq
      obtain ⟨hent, hc', htr⟩ := heq
      subst hent
      refine ⟨by simp [REntry.branch], ?_⟩
      rw [← htr]
      exact fun a ha => absurd ha (List.not_mem_nil a)
    · dsimp only at heq
      rcases hrun : runIfList sem l c with ⟨rr, c2, trl⟩
      rw [hrun] at heq
      rcases rr with t | esl
      · simp at heq
      · dsimp only at heq
        simp only [Prod.mk.injEq, Except.ok.injEq] at heq
        obtain ⟨hent, hc', htr⟩ := heq
        subst hent
        refine ⟨by simp [REntry.branch], ?_⟩
        rw [← htr]
        simp only [REntry.childrenR]
        exact runIfList_untaken sem l c esl c2 trl hrun hnd

/-- `runIf_untaken` for a block list. -/
theorem runIfList_untaken (sem : E → Ctx → (Except V Bool) × Ctx)
    (bs : List (IfBlock E)) (c : Ctx)
    (es : List REntry) (c' : Ctx) (tr : List (E × Ctx))
    (heq : runIfList sem bs c = (.ok es, c', tr))
    (hnd : (allGuardsList bs).Nodup) :
    (tr.map Prod.fst).Disjoint (untakenList bs es) := by
  rcases bs with _ | ⟨b, rest⟩
  · unfold runIfList at heq
    simp only [Prod.mk.injEq, Except.ok.injEq] at heq
    obtain ⟨hes, hc', htr⟩ := heq
    rw [← htr]
    exact fun a ha => absurd ha (List.not_mem_nil a)
  · unfold runIfList at heq
    unfold allGuardsList at hnd
    rw [List.nodup_append] at hnd
    obtain ⟨hndB, hndR, hdBR⟩ := hnd
    rcases hb : runIf sem b c with ⟨rb, c1, trb⟩
    rw [hb] at heq
    rcases rb with t | e
    · simp at heq
    · dsimp only at heq
      rcases hr : runIfList sem rest c1 with ⟨rr, c2, trr⟩
      rw [hr] at heq
      rcases rr with t2 | esr
      · simp at heq
      · dsimp only at heq
        simp only [Prod.mk.injEq, Except.ok.injEq] at heq
        obtain ⟨hes, hc', htr⟩ := heq
        subst hes
        have hdb := runIf_untaken sem b c e c1 trb hb hndB
        have hdr := runIfList_untaken sem rest c1 esr c2 trr hr hndR
        have htb := (runIf_trace_spec sem b c).1
        rw [hb] at htb
        dsimp only at htb
        have htr2 := (runIfList_trace_spec sem rest c1).1
        rw [hr] at htr2
        dsimp only at htr2
        rw [← htr, List.map_append]
        unfold untakenList
        rw [List.disjoint_append_left]
        constructor
        · rw [List.disjoint_append_right]
          exact ⟨hdb, listDisjoint_mono htb.subset (untakenList_subset rest esr) hdBR⟩
        · rw [List.disjoint_append_right]
          exact ⟨listDisjoint_mono htr2.subset (untakenOne_subset b e) hdBR.symm, hdr⟩

end

/-- A guard semantics for exercising untaken branches: a guard is truthy
iff its (integer) expression is positive, and always adds the expression
to the (integer) context. -/
def c1Sem : Int → Int → (Except Unit Bool) × Int :=
  fun e c => (Except.ok (decide (0 < e)), c + e)

/-- A childless block with guard `99`, nested inside `c1Block`. -/
def c1Inner : IfBlock Int :=
  .mk 99 0 0 0 0 none none none none Endif.unset false

/-- A top-level block whose falsy guard `-3` hides `c1Inner` inside the
never-taken `if` branch. -/
def c1Block : IfBlock Int :=
  .mk (-3) 0 0 0 0 none (some [c1Inner]) none none Endif.unset false

/-- C1: in a successful batch run over a tree with pairwise-distinct
guard expressions, a guard belonging to a block nested inside a branch
the result marks as not taken never occurs in the run's evaluation
trace — the generated program nests child evaluation inside the
conditional selecting the parent branch, so such guards are never
evaluated — and the final context is the replay of exactly the traced
(evaluated) guards, so an untaken nested guard contributes no mutation
to the context. -/
theorem runIfList_untaken_guards_never_evaluated
    (sem : E → Ctx → (Except V Bool) × Ctx) (bs : List (IfBlock E)) (c : Ctx)
    (es : List REntry) (c' : Ctx) (tr : List (E × Ctx))
    (heq : runIfList sem bs c = (.ok es, c', tr))
    (hnd : (allGuardsList bs).Nodup) :
    (∀ g ∈ untakenList bs es, g ∉ tr.map Prod.fst) ∧
    c' = replayCtx sem (tr.map Prod.fst) c := by
  constructor
  · intro g hg hmem
    exact runIfList_untaken sem bs c es c' tr heq hnd hmem hg
  · have h3 := (runIfList_trace_spec sem bs c).2.2
    rw [heq] at h3
    exact h3

/-- Witness for C1 on a concrete run: the block with falsy guard `-3`
hides guard `99` in its untaken `if` branch; the run's trace never
contains `99`, and the final context `-3` is the replay of the one
evaluated guard. -/
theorem runIfList_untaken_guards_never_evaluated_witness :
    ((99 : Int) ∉ (runIfList c1Sem [c1Block] 0).2.2.map Prod.fst) ∧
    (runIfList c1Sem [c1Block] 0).2.1 =
      replayCtx c1Sem ((runIfList c1Sem [c1Block] 0).2.2.map Prod.fst) 0 := by
  obtain ⟨h1, h2⟩ := runIfList_untaken_guards_never_evaluated c1Sem [c1Block] 0
    [REntry.mk (-1) none] (-3) [((-3 : Int), (0 : Int))] (by rfl) (by decide)
  exact ⟨h1 99 (by decide), h2⟩

end CondComp
